import Mathlib

/-!
Verification of the configuration loader (`src/hydra/_internal/config_loader.py`)
against its natural-language specification.

The Python code is shallowly embedded: `DictConfig` entries of the defaults list
become ordered association lists, `ListConfig` becomes `List`, exceptions become
`Except String`, and the filesystem / package-resource probes become explicit
oracle parameters.  Definitions follow the source line by line; functions that
the source imports from elsewhere in the repository (and whose code is not part
of the sources here) are modelled from the specification and marked as such.
-/

namespace Hydra

/-- Scalar values stored in defaults-list dictionaries: strings, booleans
(the `optional` flag) and `None`. -/
inductive CVal where
  | str (s : String)
  | bool (b : Bool)
  | null
deriving DecidableEq

/-- Ordered key/value map, the embedding of an `omegaconf.DictConfig` used as a
defaults-list entry (Python dictionaries preserve insertion order). -/
abbrev KVs := List (String × CVal)

/-- One element of a defaults list: either a bare string (a file to load from
the search-path root) or a group-binding dictionary. -/
inductive DEntry where
  | bare (s : String)
  | dict (kvs : KVs)
deriving DecidableEq

/-- Look up a key in an ordered map (first binding wins, as in a Python dict
where keys are unique; our operations keep keys unique). -/
def lookupKV : KVs → String → Option CVal
  | [], _ => none
  | (k', v') :: rest, k => if k' = k then some v' else lookupKV rest k

/-- Set a key in an ordered map: an existing binding is updated in place, a new
binding is appended at the end, exactly like assignment into a Python dict. -/
def setKV : KVs → String → CVal → KVs
  | [], k, v => [(k, v)]
  | (k', v') :: rest, k, v =>
    if k' = k then (k, v) :: rest else (k', v') :: setKV rest k v

/-- Remove a key from an ordered map (embedding of `del d[key]`). -/
def removeKV : KVs → String → KVs
  | [], _ => []
  | (k', v') :: rest, k => if k' = k then rest else (k', v') :: removeKV rest k

/- ---------------------------------------------------------------------------
String helpers, written over character lists so that all proofs and witnesses
evaluate inside the kernel.
--------------------------------------------------------------------------- -/

/-- Split a character list at the first occurrence of a separator character. -/
def splitAtChar (sep : Char) : List Char → Option (List Char × List Char)
  | [] => none
  | c :: rest =>
    if c = sep then some ([], rest)
    else (splitAtChar sep rest).map (fun p => (c :: p.1, p.2))

/-- Modelled from the spec: the override parser of
`hydra.plugins.common.utils.split_key_val` (its source file is not among the
sources here).  Per the specification an override token has the form
`KEY=VALUE` and is split at the first `=`; a token without `=` is rejected
(the source asserts). -/
def splitKeyVal (s : String) : Option (String × String) :=
  (splitAtChar '=' s.toList).map (fun p => (⟨p.1⟩, ⟨p.2⟩))

/-- Whether a string contains a comma (the `"," in value` test). -/
def hasComma (s : String) : Bool := s.toList.contains ','

/-- Boolean prefix test on character lists. -/
def prefixOfChars : List Char → List Char → Bool
  | [], _ => true
  | _ :: _, [] => false
  | a :: as, b :: bs => a == b && prefixOfChars as bs

/-- Boolean contiguous-substring test on character lists (the Python
`needle in haystack` test on strings). -/
def charsContain (needle : List Char) : List Char → Bool
  | [] => prefixOfChars needle []
  | c :: rest => prefixOfChars needle (c :: rest) || charsContain needle rest

/-- The `"_SKIP_" in s` test used by `_merge_defaults`. -/
def hasSkip (s : String) : Bool := charsContain "_SKIP_".toList s.toList

/- ---------------------------------------------------------------------------
Key extraction over defaults entries.
--------------------------------------------------------------------------- -/

/-- First key of a dictionary entry, the key used by
`ConfigLoader._apply_defaults_overrides` (`next(iter(d.keys()))`); `none` for
bare entries and for an empty dictionary (where the source would raise
`StopIteration`). -/
def phase1Key : DEntry → Option String
  | .bare _ => none
  | .dict [] => none
  | .dict ((k, _) :: _) => some k

/-- Key extraction of `ConfigLoader._merge_default_lists.get_key`: the first
key, skipping a leading `optional` key; `none` where the source would raise
`StopIteration`. -/
def mergeKey : DEntry → Option String
  | .bare _ => none
  | .dict [] => none
  | .dict ((k1, _) :: rest) =>
    if k1 = "optional" then
      match rest with
      | [] => none
      | (k2, _) :: _ => some k2
    else some k1

/-- Index assigned to a key by a `key_to_idx` dictionary built with
`key_to_idx[key] = idx` inside a forward loop: the last index whose entry
yields that key.  `f` is the key-extraction function, `base` the index of the
head of the list. -/
def lastIdxAux (f : DEntry → Option String) (key : String) :
    List DEntry → Nat → Option Nat
  | [], _ => none
  | d :: rest, base =>
    match lastIdxAux f key rest (base + 1) with
    | some j => some j
    | none => if f d = some key then some base else none

/-- The `key_to_idx` map of `_apply_defaults_overrides` (first-key based). -/
def keyToIdx (ds : List DEntry) (k : String) : Option Nat :=
  lastIdxAux phase1Key k ds 0

/-- The `key_to_idx` map of `_merge_default_lists` (optional-skipping keys). -/
def mergeKeyToIdx (ds : List DEntry) (k : String) : Option Nat :=
  lastIdxAux mergeKey k ds 0

/-- Whether every dictionary entry of the list is non-empty, so that building
`key_to_idx` in `_apply_defaults_overrides` does not raise `StopIteration`. -/
def dictsHaveKeys (ds : List DEntry) : Bool :=
  ds.all (fun e =>
    match e with
    | .dict [] => false
    | _ => true)

/-- Whether `get_key` succeeds on every dictionary entry of the list, so that
`_merge_default_lists` does not raise. -/
def mergeWF (ds : List DEntry) : Bool :=
  ds.all (fun e =>
    match e with
    | .dict _ => (mergeKey e).isSome
    | .bare _ => true)

/- ---------------------------------------------------------------------------
Phase 1: ConfigLoader._apply_defaults_overrides.
--------------------------------------------------------------------------- -/

/-- The assignment `defaults[i][key] = value`; fails like the source when the
entry is a plain string (`TypeError`). -/
def entryAssign (e : DEntry) (k : String) (v : CVal) : Except String DEntry :=
  match e with
  | .bare _ => .error "TypeError: str does not support item assignment"
  | .dict kvs => .ok (.dict (setKV kvs k v))

/-- Loop body of `_apply_defaults_overrides`.  The snapshot is the deep copy
of the overrides being iterated; the state carries the live overrides list
(mutated by `overrides.remove`), the live defaults list and the accumulated
`consumed` list.  `kti` is the `key_to_idx` map, built once before the loop. -/
def adoGo (kti : String → Option Nat) :
    List String → List String × List DEntry × List String →
    Except String (List String × List DEntry × List String)
  | [], st => .ok st
  | o :: rest, (live, ds, cons) =>
    match splitKeyVal o with
    | none => .error "AssertionError: split_key_val"
    | some (k, v) =>
      match kti k with
      | none => adoGo kti rest (live, ds, cons)
      | some i =>
        let v' := if hasComma v then "_SKIP_" else v
        if v' = "null" then
          if i < ds.length then
            adoGo kti rest (live.erase o, ds.eraseIdx i, cons ++ [o])
          else .error "IndexError: list index out of range"
        else
          match ds.get? i with
          | none => .error "IndexError: list index out of range"
          | some e =>
            match entryAssign e k (.str v') with
            | .error err => .error err
            | .ok e' => adoGo kti rest (live.erase o, ds.set i e', cons ++ [o])

/-- Embedding of `ConfigLoader._apply_defaults_overrides`.  Returns the
mutated overrides list, the mutated defaults list and the `consumed` list.
Builds `key_to_idx` first (raising where the source would). -/
def applyDefaultsOverrides (overrides : List String) (defaults : List DEntry) :
    Except String (List String × List DEntry × List String) :=
  if dictsHaveKeys defaults then
    adoGo (keyToIdx defaults) overrides (overrides, defaults, [])
  else .error "StopIteration"

/- ---------------------------------------------------------------------------
Phase 2: ConfigLoader._apply_free_defaults.
--------------------------------------------------------------------------- -/

/-- Loop body of `_apply_free_defaults`; `exSP` is the
`exists_in_search_path` probe (a pure oracle over the fixed search path). -/
def afdGo (exSP : String → Bool) :
    List String → List String × List DEntry × List String →
    Except String (List String × List DEntry × List String)
  | [], st => .ok st
  | o :: rest, (live, ds, cons) =>
    match splitKeyVal o with
    | none => .error "AssertionError: split_key_val"
    | some (k, v) =>
      if exSP k then
        let ds' := if hasComma v then ds else ds ++ [.dict [(k, .str v)]]
        afdGo exSP rest (live.erase o, ds', cons ++ [o])
      else afdGo exSP rest (live, ds, cons)

/-- Embedding of `ConfigLoader._apply_free_defaults`. -/
def applyFreeDefaults (exSP : String → Bool) (defaults : List DEntry)
    (overrides : List String) :
    Except String (List String × List DEntry × List String) :=
  afdGo exSP overrides (overrides, defaults, [])

/- ---------------------------------------------------------------------------
The override-classification slice of ConfigLoader.load_configuration
(lines 79-95 of the source).
--------------------------------------------------------------------------- -/

/-- Result of classifying the command-line overrides. -/
structure ClassifyResult where
  consumed1 : List String
  consumed2 : List String
  remaining : List String
  defaults : List DEntry
deriving DecidableEq

/-- The classification performed by `load_configuration`: phase 1
(`_apply_defaults_overrides`), then phase 2 (`_apply_free_defaults`), then
`remaining_overrides = [x for x in overrides if x not in all_consumed]`. -/
def classifyOverrides (exSP : String → Bool) (overrides : List String)
    (defaults : List DEntry) : Except String ClassifyResult :=
  match applyDefaultsOverrides overrides defaults with
  | .error e => .error e
  | .ok (ov1, ds1, c1) =>
    match applyFreeDefaults exSP ds1 ov1 with
    | .error e => .error e
    | .ok (ov2, ds2, c2) =>
      .ok ⟨c1, c2, ov2.filter (fun x => !((c1 ++ c2).contains x)), ds2⟩

/- ---------------------------------------------------------------------------
Classification predicates.  Both phases decide membership by a pure predicate
of the override token alone: phase 1 looks the key up in the static
`key_to_idx` map, phase 2 probes the search path.
--------------------------------------------------------------------------- -/

/-- Whether phase 1 consumes a token: its key is a key of `key_to_idx`. -/
def phase1Hit (kti : String → Option Nat) (o : String) : Bool :=
  match splitKeyVal o with
  | some (k, _) => (kti k).isSome
  | none => false

/-- Whether phase 2 consumes a token: its key resolves in the search path. -/
def phase2Hit (exSP : String → Bool) (o : String) : Bool :=
  match splitKeyVal o with
  | some (k, _) => exSP k
  | none => false

theorem adoGo_ok (kti : String → Option Nat) :
    ∀ (snap X : List String) (ds : List DEntry) (cons live' : List String)
      (ds' : List DEntry) (cons' : List String),
      (∀ t ∈ X, phase1Hit kti t = false) →
      adoGo kti snap (X ++ snap, ds, cons) = .ok (live', ds', cons') →
      live' = X ++ snap.filter (fun t => !phase1Hit kti t) ∧
      cons' = cons ++ snap.filter (phase1Hit kti) := by
  intro snap
  induction snap with
  | nil =>
    intro X ds cons live' ds' cons' hX h
    simp only [adoGo, List.append_nil] at h
    have h' := Except.ok.inj h
    simp only [Prod.mk.injEq] at h'
    obtain ⟨h1, _, h3⟩ := h'
    constructor
    · simp [← h1]
    · simp [← h3]
  | cons o rest ih =>
    intro X ds cons live' ds' cons' hX h
    have hnotinX : phase1Hit kti o = true → o ∉ X := by
      intro hp hmem
      rw [hX o hmem] at hp
      exact Bool.false_ne_true hp
    simp only [adoGo] at h
    rcases hsplit : splitKeyVal o with _ | ⟨k, v⟩ <;>
      simp only [hsplit] at h
    · exact absurd h (by simp)
    · rcases hk : kti k with _ | i <;> simp only [hk] at h
      · -- key not in key_to_idx: token stays, recurse with X extended
        have hp : phase1Hit kti o = false := by simp [phase1Hit, hsplit, hk]
        have hX' : ∀ t ∈ X ++ [o], phase1Hit kti t = false := by
          intro t ht
          rcases List.mem_append.mp ht with h1 | h1
          · exact hX t h1
          · simp only [List.mem_singleton] at h1
            exact h1 ▸ hp
        have := ih (X ++ [o]) ds cons live' ds' cons' hX'
          (by simpa [List.append_assoc] using h)
        refine ⟨?_, ?_⟩
        · rw [this.1]
          simp [hp, List.append_assoc]
        · rw [this.2]
          simp [hp]
      · -- key in key_to_idx: token consumed
        have hp : phase1Hit kti o = true := by simp [phase1Hit, hsplit, hk]
        have herase : (X ++ o :: rest).erase o = X ++ rest := by
          rw [List.erase_append_right _ (hnotinX hp), List.erase_cons_head]
        by_cases hv : (if hasComma v then "_SKIP_" else v) = "null"
        · rw [if_pos hv] at h
          by_cases hlen : i < ds.length
          · rw [if_pos hlen, herase] at h
            have := ih X (ds.eraseIdx i) (cons ++ [o]) live' ds' cons' hX h
            refine ⟨?_, ?_⟩
            · rw [this.1]; simp [hp]
            · rw [this.2]; simp [hp]
          · rw [if_neg hlen] at h
            exact absurd h (by simp)
        · rw [if_neg hv] at h
          rcases hget : ds.get? i with _ | e <;> simp only [hget] at h
          · exact absurd h (by simp)
          · rcases hassign : entryAssign e k
                (.str (if hasComma v then "_SKIP_" else v)) with err | e' <;>
              simp only [hassign] at h
            · exact absurd h (by simp)
            · rw [herase] at h
              have := ih X (ds.set i e') (cons ++ [o]) live' ds' cons' hX h
              refine ⟨?_, ?_⟩
              · rw [this.1]; simp [hp]
              · rw [this.2]; simp [hp]

theorem afdGo_ok (exSP : String → Bool) :
    ∀ (snap X : List String) (ds : List DEntry) (cons live' : List String)
      (ds' : List DEntry) (cons' : List String),
      (∀ t ∈ X, phase2Hit exSP t = false) →
      afdGo exSP snap (X ++ snap, ds, cons) = .ok (live', ds', cons') →
      live' = X ++ snap.filter (fun t => !phase2Hit exSP t) ∧
      cons' = cons ++ snap.filter (phase2Hit exSP) := by
  intro snap
  induction snap with
  | nil =>
    intro X ds cons live' ds' cons' hX h
    simp only [afdGo, List.append_nil] at h
    have h' := Except.ok.inj h
    simp only [Prod.mk.injEq] at h'
    obtain ⟨h1, _, h3⟩ := h'
    constructor
    · simp [← h1]
    · simp [← h3]
  | cons o rest ih =>
    intro X ds cons live' ds' cons' hX h
    simp only [afdGo] at h
    rcases hsplit : splitKeyVal o with _ | ⟨k, v⟩ <;>
      simp only [hsplit] at h
    · exact absurd h (by simp)
    · by_cases hex : exSP k
      · have hp : phase2Hit exSP o = true := by simp [phase2Hit, hsplit, hex]
        have hnotinX : o ∉ X := by
          intro hmem
          rw [hX o hmem] at hp
          exact Bool.false_ne_true hp
        have herase : (X ++ o :: rest).erase o = X ++ rest := by
          rw [List.erase_append_right _ hnotinX, List.erase_cons_head]
        rw [if_pos hex, herase] at h
        have := ih X _ (cons ++ [o]) live' ds' cons' hX h
        refine ⟨?_, ?_⟩
        · rw [this.1]; simp [hp]
        · rw [this.2]; simp [hp]
      · have hp : phase2Hit exSP o = false := by
          simp [phase2Hit, hsplit, hex]
        rw [if_neg hex] at h
        have hX' : ∀ t ∈ X ++ [o], phase2Hit exSP t = false := by
          intro t ht
          rcases List.mem_append.mp ht with h1 | h1
          · exact hX t h1
          · simp only [List.mem_singleton] at h1
            exact h1 ▸ hp
        have := ih (X ++ [o]) ds cons live' ds' cons' hX'
          (by simpa [List.append_assoc] using h)
        refine ⟨?_, ?_⟩
        · rw [this.1]
          simp [hp, List.append_assoc]
        · rw [this.2]
          simp [hp]

/-- C1: every override token passed to the classification slice of
`load_configuration` lands in exactly one of the three outcomes (consumed by
the group-rewrite phase, consumed by the free-defaults phase, or residual),
and the concatenation of the three lists is a permutation of the original
override list. -/
theorem override_classification_partition (exSP : String → Bool)
    (overrides : List String) (defaults : List DEntry) (r : ClassifyResult)
    (h : classifyOverrides exSP overrides defaults = .ok r) :
    (r.consumed1 ++ r.consumed2 ++ r.remaining).Perm overrides := by
  unfold classifyOverrides at h
  rcases h1 : applyDefaultsOverrides overrides defaults with e | ⟨ov1, ds1, c1⟩ <;>
    simp only [h1] at h
  · exact absurd h (by simp)
  rcases h2 : applyFreeDefaults exSP ds1 ov1 with e | ⟨ov2, ds2, c2⟩ <;>
    simp only [h2] at h
  · exact absurd h (by simp)
  have hr := Except.ok.inj h
  unfold applyDefaultsOverrides at h1
  rcases hd : dictsHaveKeys defaults with _ | _ <;> rw [hd] at h1
  · exact absurd h1 (by simp)
  have hph1 := adoGo_ok (keyToIdx defaults) overrides [] defaults [] ov1 ds1 c1
    (by intro t ht; exact absurd ht (List.not_mem_nil t)) h1
  have hph2 := afdGo_ok exSP ov1 [] ds1 [] ov2 ds2 c2
    (by intro t ht; exact absurd ht (List.not_mem_nil t)) h2
  have hc1 : c1 = overrides.filter (phase1Hit (keyToIdx defaults)) := by
    simpa using hph1.2
  have hov1 : ov1 = overrides.filter
      (fun t => !phase1Hit (keyToIdx defaults) t) := by
    simpa using hph1.1
  have hc2 : c2 = ov1.filter (phase2Hit exSP) := by simpa using hph2.2
  have hov2 : ov2 = ov1.filter (fun t => !phase2Hit exSP t) := by
    simpa using hph2.1
  -- the post-phase residual filter removes nothing: residual tokens satisfy
  -- neither predicate, consumed ones satisfy one of them
  have hrem : ov2.filter (fun x => !((c1 ++ c2).contains x)) = ov2 := by
    apply List.filter_eq_self.mpr
    intro x hx
    have hxp2 : phase2Hit exSP x = false := by
      rw [hov2] at hx
      simpa using (List.of_mem_filter hx)
    have hxmem1 : x ∈ ov1 := by
      rw [hov2] at hx
      exact List.mem_of_mem_filter hx
    have hxp1 : phase1Hit (keyToIdx defaults) x = false := by
      rw [hov1] at hxmem1
      simpa using (List.of_mem_filter hxmem1)
    have hnc1 : x ∉ c1 := by
      rw [hc1]
      intro hmem
      have := List.of_mem_filter hmem
      rw [hxp1] at this
      exact Bool.false_ne_true this
    have hnc2 : x ∉ c2 := by
      rw [hc2]
      intro hmem
      have := List.of_mem_filter hmem
      rw [hxp2] at this
      exact Bool.false_ne_true this
    have : x ∉ c1 ++ c2 := by
      rw [List.mem_append]
      rintro (hm | hm)
      · exact hnc1 hm
      · exact hnc2 hm
    simp [this]
  have hr1 : r.consumed1 = c1 := by rw [← hr]
  have hr2 : r.consumed2 = c2 := by rw [← hr]
  have hr3 : r.remaining = ov2 := by rw [← hr]; exact hrem
  rw [hr1, hr2, hr3]
  have step1 : (c2 ++ ov2).Perm ov1 := by
    rw [hc2, hov2]
    exact List.filter_append_perm _ ov1
  have step2 : (c1 ++ ov1).Perm overrides := by
    rw [hc1, hov1]
    exact List.filter_append_perm _ overrides
  rw [List.append_assoc]
  exact (step1.append_left c1).trans step2

/-- Witness for C1 at a concrete input: one override rewrites the `model`
group, one adds a free default, one is residual; their concatenation is a
permutation of the input. -/
theorem override_classification_partition_witness :
    (["model=b"] ++ ["free=x"] ++ ["leaf.v=1"]).Perm
      ["model=b", "free=x", "leaf.v=1"] :=
  override_classification_partition (fun k => k == "free")
    ["model=b", "free=x", "leaf.v=1"]
    [.dict [("model", .str "a")]]
    ⟨["model=b"], ["free=x"], ["leaf.v=1"],
      [.dict [("model", .str "b")], .dict [("free", .str "x")]]⟩
    rfl

/- ---------------------------------------------------------------------------
ConfigLoader._merge_default_lists.
--------------------------------------------------------------------------- -/

/-- Whether an entry is a bare string. -/
def isBareEntry : DEntry → Bool
  | .bare _ => true
  | .dict _ => false

/-- Loop body of `_merge_default_lists`: iterate over a deep copy of the
secondary list; a dictionary entry whose `get_key` is a key of `key_to_idx`
overwrites `primary[idx]` wholesale and is removed (by value) from the live
secondary list; everything else is left for the final append loop. -/
def mergeGo (kti : String → Option Nat) :
    List DEntry → List DEntry × List DEntry →
    Except String (List DEntry × List DEntry)
  | [], st => .ok st
  | d :: rest, (p, m) =>
    match d with
    | .bare _ => mergeGo kti rest (p, m)
    | .dict kvs =>
      match mergeKey (.dict kvs) with
      | none => .error "StopIteration"
      | some k =>
        match kti k with
        | some i => mergeGo kti rest (p.set i (.dict kvs), m.erase (.dict kvs))
        | none => mergeGo kti rest (p, m)

/-- Embedding of `ConfigLoader._merge_default_lists`: build `key_to_idx` over
the primary list (raising where `get_key` would), run the replacement loop,
then append the entries remaining in the secondary list. -/
def mergeDefaultLists (primary merged : List DEntry) :
    Except String (List DEntry) :=
  if mergeWF primary then
    match mergeGo (mergeKeyToIdx primary) merged (primary, merged) with
    | .error e => .error e
    | .ok (p', m') => .ok (p' ++ m')
  else .error "StopIteration"

/-- Whether a secondary entry is matched against the primary list: it is a
dictionary whose extracted group key is bound in `key_to_idx`. -/
def mergeMatched (kti : String → Option Nat) (d : DEntry) : Bool :=
  match mergeKey d with
  | none => false
  | some k => (kti k).isSome

/-- One declarative replacement step: a matched entry overwrites the primary
slot that `key_to_idx` assigns to its group (the last occurrence of that
group); anything else leaves the accumulator unchanged. -/
def replaceStep (kti : String → Option Nat) (acc : List DEntry)
    (d : DEntry) : List DEntry :=
  match mergeKey d with
  | none => acc
  | some k =>
    match kti k with
    | some i => acc.set i d
    | none => acc

/-- Declarative description of `_merge_default_lists` (the amended claim C2):
with `key_to_idx` computed once over the original primary list and mapping
each group to its last occurrence, every matched secondary entry replaces
that primary slot wholesale, in secondary order; the unmatched secondary
entries are appended at the end in order. -/
def mergeSpec (primary merged : List DEntry) : List DEntry :=
  merged.foldl (replaceStep (mergeKeyToIdx primary)) primary ++
    merged.filter (fun d => !mergeMatched (mergeKeyToIdx primary) d)

theorem mergeGo_ok (kti : String → Option Nat) :
    ∀ (snap A p : List DEntry) (p' m' : List DEntry),
      (∀ d ∈ A, mergeMatched kti d = false) →
      (∀ kvs, DEntry.dict kvs ∈ snap → (mergeKey (.dict kvs)).isSome) →
      mergeGo kti snap (p, A ++ snap) = .ok (p', m') →
      p' = snap.foldl (replaceStep kti) p ∧
      m' = A ++ snap.filter (fun d => !mergeMatched kti d) := by
  intro snap
  induction snap with
  | nil =>
    intro A p p' m' hA hsnap h
    simp only [mergeGo, List.append_nil] at h
    have h' := Except.ok.inj h
    simp only [Prod.mk.injEq] at h'
    obtain ⟨h1, h2⟩ := h'
    simp [← h1, ← h2]
  | cons d rest ih =>
    intro A p p' m' hA hsnap h
    have hsnap' : ∀ kvs, DEntry.dict kvs ∈ rest → (mergeKey (.dict kvs)).isSome := by
      intro kvs hm
      exact hsnap kvs (List.mem_cons_of_mem _ hm)
    rcases d with s | kvs
    · -- bare entry: skipped by the loop, kept for the append loop
      simp only [mergeGo] at h
      have hmb : mergeMatched kti (.bare s) = false := rfl
      have hA' : ∀ e ∈ A ++ [DEntry.bare s], mergeMatched kti e = false := by
        intro e he
        rcases List.mem_append.mp he with h1 | h1
        · exact hA e h1
        · simp only [List.mem_singleton] at h1
          exact h1 ▸ hmb
      have := ih (A ++ [.bare s]) p p' m' hA' hsnap'
        (by simpa [List.append_assoc] using h)
      refine ⟨?_, ?_⟩
      · rw [this.1]
        simp [List.foldl_cons, replaceStep, mergeKey]
      · rw [this.2]
        simp [hmb, List.append_assoc]
    · -- dictionary entry
      have hkey := hsnap kvs (List.mem_cons_self _ _)
      rcases hk : mergeKey (.dict kvs) with _ | k
      · rw [hk] at hkey
        exact absurd hkey (by simp)
      simp only [mergeGo, hk] at h
      rcases hi : kti k with _ | i <;> simp only [hi] at h
      · -- unmatched dictionary: kept for the append loop
        have hmb : mergeMatched kti (.dict kvs) = false := by
          simp [mergeMatched, hk, hi]
        have hA' : ∀ e ∈ A ++ [DEntry.dict kvs], mergeMatched kti e = false := by
          intro e he
          rcases List.mem_append.mp he with h1 | h1
          · exact hA e h1
          · simp only [List.mem_singleton] at h1
            exact h1 ▸ hmb
        have := ih (A ++ [.dict kvs]) p p' m' hA' hsnap'
          (by simpa [List.append_assoc] using h)
        refine ⟨?_, ?_⟩
        · rw [this.1]
          simp [List.foldl_cons, replaceStep, hk, hi]
        · rw [this.2]
          simp [hmb, List.append_assoc]
      · -- matched dictionary: wholesale replacement and removal by value
        have hmb : mergeMatched kti (.dict kvs) = true := by
          simp [mergeMatched, hk, hi]
        have hnotinA : DEntry.dict kvs ∉ A := by
          intro hmem
          rw [hA _ hmem] at hmb
          exact Bool.false_ne_true hmb
        have herase : (A ++ DEntry.dict kvs :: rest).erase (.dict kvs) =
            A ++ rest := by
          rw [List.erase_append_right _ hnotinA, List.erase_cons_head]
        rw [herase] at h
        have := ih A (p.set i (.dict kvs)) p' m' hA hsnap' h
        refine ⟨?_, ?_⟩
        · rw [this.1]
          simp [List.foldl_cons, replaceStep, hk, hi]
        · rw [this.2]
          simp [hmb]

theorem mergeGo_ne_error (kti : String → Option Nat) :
    ∀ (snap : List DEntry) (st : List DEntry × List DEntry),
      (∀ kvs, DEntry.dict kvs ∈ snap → (mergeKey (.dict kvs)).isSome) →
      ∀ e, mergeGo kti snap st ≠ .error e := by
  intro snap
  induction snap with
  | nil =>
    intro st hsnap e
    simp [mergeGo]
  | cons d rest ih =>
    intro st hsnap e
    obtain ⟨p, m⟩ := st
    have hsnap' : ∀ kvs, DEntry.dict kvs ∈ rest →
        (mergeKey (.dict kvs)).isSome := by
      intro kvs hm
      exact hsnap kvs (List.mem_cons_of_mem _ hm)
    rcases d with s | kvs
    · simpa only [mergeGo] using ih (p, m) hsnap' e
    · have hkey := hsnap kvs (List.mem_cons_self _ _)
      rcases hk : mergeKey (.dict kvs) with _ | k
      · rw [hk] at hkey
        exact absurd hkey (by simp)
      simp only [mergeGo, hk]
      rcases hi : kti k with _ | i <;> simp only [hi]
      · exact ih (p, m) hsnap' e
      · exact ih (p.set i (.dict kvs), m.erase (.dict kvs)) hsnap' e

/-- Characterization of `_merge_default_lists` on well-formed inputs; shared
by the theorems about the merge operation. -/
theorem mergeDefaultLists_eq_spec (p s : List DEntry)
    (hp : mergeWF p = true) (hs : mergeWF s = true) :
    mergeDefaultLists p s = .ok (mergeSpec p s) := by
  have hsnap : ∀ kvs, DEntry.dict kvs ∈ s → (mergeKey (.dict kvs)).isSome := by
    intro kvs hm
    have := List.all_eq_true.mp hs _ hm
    simpa using this
  unfold mergeDefaultLists
  rw [if_pos hp]
  rcases hgo : mergeGo (mergeKeyToIdx p) s (p, s) with e | ⟨p', m'⟩
  · exact absurd hgo (mergeGo_ne_error (mergeKeyToIdx p) s (p, s) hsnap e)
  · have := mergeGo_ok (mergeKeyToIdx p) s [] p p' m'
      (by intro e he; exact absurd he (List.not_mem_nil e))
      hsnap (by simpa using hgo)
    rw [this.1, this.2]
    simp [mergeSpec]

/- ---------------------------------------------------------------------------
Positional lemmas about lists and about the last-occurrence index map.
--------------------------------------------------------------------------- -/

theorem getq_set_eq {α : Type _} :
    ∀ (l : List α) (i : Nat) (a : α), i < l.length →
      (l.set i a).get? i = some a := by
  intro l
  induction l with
  | nil => intro i a h; simp at h
  | cons x xs ih =>
    intro i a h
    cases i with
    | zero => rfl
    | succ n =>
      simp only [List.set, List.get?]
      exact ih n a (by simpa using Nat.lt_of_succ_lt_succ h)

theorem getq_set_ne {α : Type _} :
    ∀ (l : List α) (i j : Nat) (a : α), i ≠ j →
      (l.set i a).get? j = l.get? j := by
  intro l
  induction l with
  | nil => intro i j a _; simp
  | cons x xs ih =>
    intro i j a hij
    cases i with
    | zero =>
      cases j with
      | zero => exact absurd rfl hij
      | succ m => rfl
    | succ n =>
      cases j with
      | zero => rfl
      | succ m =>
        simp only [List.set, List.get?]
        exact ih n m a (fun hc => hij (by rw [hc]))

theorem getq_append_mid {α : Type _} :
    ∀ (A B : List α) (d : α), (A ++ d :: B).get? A.length = some d := by
  intro A
  induction A with
  | nil => intro B d; rfl
  | cons x xs ih => intro B d; simpa using ih B d

theorem getq_ext {α : Type _} :
    ∀ {l₁ l₂ : List α}, (∀ n, l₁.get? n = l₂.get? n) → l₁ = l₂ := by
  intro l₁
  induction l₁ with
  | nil =>
    intro l₂ h
    cases l₂ with
    | nil => rfl
    | cons b bs => exact absurd (h 0).symm (by simp)
  | cons a as ih =>
    intro l₂ h
    cases l₂ with
    | nil => exact absurd (h 0) (by simp)
    | cons b bs =>
      have h0 : some a = some b := h 0
      have hrest : as = bs := ih (fun n => h (n + 1))
      rw [Option.some.inj h0, hrest]

theorem lastIdxAux_isSome_of_mem (f : DEntry → Option String) (k : String) :
    ∀ (L : List DEntry) (base : Nat) (d : DEntry), d ∈ L → f d = some k →
      (lastIdxAux f k L base).isSome := by
  intro L
  induction L with
  | nil => intro base d hd _; exact absurd hd (List.not_mem_nil d)
  | cons x xs ih =>
    intro base d hd hfd
    rcases List.mem_cons.mp hd with h1 | h1
    · have hfx : f x = some k := by rw [← h1]; exact hfd
      simp only [lastIdxAux]
      rcases hrec : lastIdxAux f k xs (base + 1) with _ | j
      · simp [hfx]
      · simp
    · have := ih (base + 1) d h1 hfd
      simp only [lastIdxAux]
      rcases hrec : lastIdxAux f k xs (base + 1) with _ | j
      · rw [hrec] at this
        exact absurd this (by simp)
      · simp

theorem lastIdxAux_bound (f : DEntry → Option String) (k : String) :
    ∀ (L : List DEntry) (base i : Nat), lastIdxAux f k L base = some i →
      base ≤ i ∧ i < base + L.length := by
  intro L
  induction L with
  | nil => intro base i h; exact absurd h (by simp [lastIdxAux])
  | cons x xs ih =>
    intro base i h
    simp only [lastIdxAux] at h
    rcases hrec : lastIdxAux f k xs (base + 1) with _ | j <;> rw [hrec] at h
    · by_cases hx : f x = some k
      · rw [if_pos hx] at h
        have := Option.some.inj h
        subst this
        constructor
        · exact Nat.le_refl base
        · simp [Nat.lt_add_of_pos_right, Nat.succ_pos]
      · rw [if_neg hx] at h
        exact absurd h (by simp)
    · have := ih (base + 1) j hrec
      have hij := Option.some.inj h
      subst hij
      constructor
      · exact Nat.le_of_succ_le this.1
      · have := this.2
        simp only [List.length_cons]
        omega

theorem lastIdxAux_none (f : DEntry → Option String) (k : String) :
    ∀ (L : List DEntry) (base : Nat), (∀ d ∈ L, f d ≠ some k) →
      lastIdxAux f k L base = none := by
  intro L
  induction L with
  | nil => intro base _; rfl
  | cons x xs ih =>
    intro base h
    simp only [lastIdxAux]
    rw [ih (base + 1) (fun d hd => h d (List.mem_cons_of_mem _ hd))]
    rw [if_neg (h x (List.mem_cons_self _ _))]

theorem lastIdxAux_last (f : DEntry → Option String) (k : String) :
    ∀ (A : List DEntry) (d : DEntry) (B : List DEntry) (base : Nat),
      f d = some k → (∀ d' ∈ B, f d' ≠ some k) →
      lastIdxAux f k (A ++ d :: B) base = some (base + A.length) := by
  intro A
  induction A with
  | nil =>
    intro d B base hd hB
    simp only [List.nil_append, lastIdxAux]
    rw [lastIdxAux_none f k B (base + 1) hB]
    simp [hd]
  | cons x xs ih =>
    intro d B base hd hB
    have hih := ih d B (base + 1) hd hB
    simp only [List.cons_append, lastIdxAux, List.append_eq, hih]
    simp only [List.length_cons]
    congr 1
    omega

theorem mergeKeyToIdx_lt (L : List DEntry) (k : String) (i : Nat)
    (h : mergeKeyToIdx L k = some i) : i < L.length := by
  have := lastIdxAux_bound mergeKey k L 0 i h
  simpa using this.2

/- ---------------------------------------------------------------------------
Merging a list into itself: the replacement pass restores every slot.
--------------------------------------------------------------------------- -/

theorem foldl_replace_suffix (L : List DEntry) :
    ∀ (S A p : List DEntry), L = A ++ S → p.length = L.length →
      (∀ i : Nat,
        (∀ d k, d ∈ S → mergeKey d = some k → mergeKeyToIdx L k ≠ some i) →
        p.get? i = L.get? i) →
      ∀ j : Nat,
        (S.foldl (replaceStep (mergeKeyToIdx L)) p).get? j = L.get? j := by
  intro S
  induction S with
  | nil =>
    intro A p _ _ hinv j
    simpa using hinv j (by intro d k hd _ _; exact (List.not_mem_nil d) hd)
  | cons d S' ih =>
    intro A p hL hplen hinv j
    simp only [List.foldl_cons]
    rcases hk : mergeKey d with _ | k0
    · -- an entry without a group key changes nothing
      have hstep : replaceStep (mergeKeyToIdx L) p d = p := by
        simp [replaceStep, hk]
      rw [hstep]
      refine ih (A ++ [d]) p (by rw [hL, List.append_assoc]; rfl) hplen ?_ j
      intro i hcond
      refine hinv i ?_
      intro d' k' hd' hk'
      rcases List.mem_cons.mp hd' with h1 | h1
      · rw [h1, hk] at hk'
        exact absurd hk' (by simp)
      · exact hcond d' k' h1 hk'
    · rcases hi : mergeKeyToIdx L k0 with _ | i0
      · have hstep : replaceStep (mergeKeyToIdx L) p d = p := by
          simp [replaceStep, hk, hi]
        rw [hstep]
        refine ih (A ++ [d]) p (by rw [hL, List.append_assoc]; rfl) hplen ?_ j
        intro i hcond
        refine hinv i ?_
        intro d' k' hd' hk'
        rcases List.mem_cons.mp hd' with h1 | h1
        · rw [h1, hk] at hk'
          have : k' = k0 := (Option.some.inj hk').symm
          rw [this, hi]
          simp
        · exact hcond d' k' h1 hk'
      · -- matched entry: it overwrites its own last-occurrence slot
        have hstep : replaceStep (mergeKeyToIdx L) p d = p.set i0 d := by
          simp [replaceStep, hk, hi]
        rw [hstep]
        refine ih (A ++ [d]) (p.set i0 d)
          (by rw [hL, List.append_assoc]; rfl) (by simpa using hplen) ?_ j
        intro i hcond
        by_cases hii : i = i0
        · subst hii
          have hlt : i < p.length := by
            rw [hplen]
            exact mergeKeyToIdx_lt L k0 i hi
          rw [getq_set_eq p i d hlt]
          -- no later element of the list carries the same group key
          have hnoS' : ∀ d' ∈ S', mergeKey d' ≠ some k0 := by
            intro d' hd' hkd'
            exact hcond d' k0 hd' hkd' hi
          have hlast : mergeKeyToIdx L k0 = some (0 + A.length) := by
            unfold mergeKeyToIdx
            rw [hL]
            exact lastIdxAux_last mergeKey k0 A d S' 0 hk hnoS'
          have hi0 : i = A.length := by
            rw [hi] at hlast
            simpa using Option.some.inj hlast
          rw [hi0, hL]
          exact (getq_append_mid A S' d).symm
        · rw [getq_set_ne p i0 i d (fun hc => hii (by rw [hc]))]
          refine hinv i ?_
          intro d' k' hd' hk'
          rcases List.mem_cons.mp hd' with h1 | h1
          · rw [h1, hk] at hk'
            have : k' = k0 := (Option.some.inj hk').symm
            rw [this, hi]
            intro hc
            exact hii (Option.some.inj hc).symm
          · exact hcond d' k' h1 hk'

theorem foldl_replace_self (L : List DEntry) :
    L.foldl (replaceStep (mergeKeyToIdx L)) L = L := by
  apply getq_ext
  intro n
  exact foldl_replace_suffix L L [] L rfl rfl (fun i _ => rfl) n

/- ---------------------------------------------------------------------------
Claims C2 and C3 about _merge_default_lists.
--------------------------------------------------------------------------- -/

/-- Counterexample to C2 as stated: (1) replacing is wholesale, not
choice-only — a primary entry `{optional: true, model: a}` merged with a
secondary `{model: b}` becomes `{model: b}`, dropping the optional flag,
whereas the claim predicts `{optional: true, model: b}`; (2) when a group
occurs twice in primary, the last occurrence is replaced, not the first. -/
theorem merge_default_lists_counterexample :
    mergeDefaultLists [.dict [("optional", .bool true), ("model", .str "a")]]
        [.dict [("model", .str "b")]] =
      .ok [.dict [("model", .str "b")]] ∧
    ([.dict [("model", .str "b")]] : List DEntry) ≠
      [.dict [("optional", .bool true), ("model", .str "b")]] ∧
    mergeDefaultLists
        [.dict [("model", .str "a")], .dict [("model", .str "c")]]
        [.dict [("model", .str "b")]] =
      .ok [.dict [("model", .str "a")], .dict [("model", .str "b")]] ∧
    ([.dict [("model", .str "a")], .dict [("model", .str "b")]] : List DEntry) ≠
      [.dict [("model", .str "b")], .dict [("model", .str "c")]] :=
  ⟨rfl, by decide, rfl, by decide⟩

/-- C2 (amended): merging a secondary defaults list into a primary one
replaces, for each secondary entry whose group (extracted by skipping a
leading optional field) is bound in the key-to-index map of the original
primary list, the last primary occurrence of that group wholesale (all fields
of the primary entry are replaced by the secondary entry), in secondary
order; all unmatched secondary entries are appended at the end in order. -/
theorem merge_default_lists_replacement (p s : List DEntry)
    (hp : mergeWF p = true) (hs : mergeWF s = true) :
    mergeDefaultLists p s = .ok (mergeSpec p s) :=
  mergeDefaultLists_eq_spec p s hp hs

/-- Witness for C2 at a concrete input: the matched group is overwritten
wholesale, the unmatched group is appended after the bare entry. -/
theorem merge_default_lists_replacement_witness :
    mergeDefaultLists
        [.dict [("model", .str "a")], .bare "config"]
        [.dict [("model", .str "b")], .dict [("db", .str "c")]] =
      .ok [.dict [("model", .str "b")], .bare "config",
        .dict [("db", .str "c")]] :=
  (merge_default_lists_replacement
    [.dict [("model", .str "a")], .bare "config"]
    [.dict [("model", .str "b")], .dict [("db", .str "c")]] rfl rfl).trans rfl

/-- Counterexample to C3 as stated: merging a defaults list containing a
bare-string entry into itself is not the identity — the bare string is
appended a second time. -/
theorem merge_self_duplicates_bare_counterexample :
    mergeDefaultLists [.bare "config"] [.bare "config"] =
      .ok [.bare "config", .bare "config"] ∧
    ([.bare "config", .bare "config"] : List DEntry) ≠ [.bare "config"] :=
  ⟨rfl, by decide⟩

/-- C3 (amended): for a well-formed defaults list, merging an empty secondary
list leaves the primary unchanged, and merging the list into itself leaves
every entry in place but appends a second copy of each bare-string entry at
the end; in particular self-merge is the identity exactly on lists consisting
solely of group-binding maps. -/
theorem merge_identity_laws (L : List DEntry) (h : mergeWF L = true) :
    mergeDefaultLists L [] = .ok L ∧
    mergeDefaultLists L L = .ok (L ++ L.filter isBareEntry) := by
  constructor
  · unfold mergeDefaultLists
    rw [if_pos h]
    simp [mergeGo]
  · rw [mergeDefaultLists_eq_spec L L h h]
    unfold mergeSpec
    rw [foldl_replace_self L]
    have hfilter : L.filter (fun d => !mergeMatched (mergeKeyToIdx L) d) =
        L.filter isBareEntry := by
      apply List.filter_congr
      intro x hx
      rcases x with s | kvs
      · rfl
      · have hkey : (mergeKey (.dict kvs)).isSome := by
          have := List.all_eq_true.mp h _ hx
          simpa using this
        rcases hk : mergeKey (.dict kvs) with _ | k
        · rw [hk] at hkey
          exact absurd hkey (by simp)
        · have hsome : (mergeKeyToIdx L k).isSome = true :=
            lastIdxAux_isSome_of_mem mergeKey k L 0 (.dict kvs) hx hk
          simp only [mergeMatched, hk, isBareEntry, hsome]
          rfl
    rw [hfilter]

/-- Witness for C3 at a concrete input. -/
theorem merge_identity_laws_witness :
    mergeDefaultLists [.dict [("model", .str "a")]] [] =
        .ok [.dict [("model", .str "a")]] ∧
    mergeDefaultLists [.dict [("model", .str "a")]]
        [.dict [("model", .str "a")]] =
      .ok ([.dict [("model", .str "a")]] ++
        List.filter isBareEntry [.dict [("model", .str "a")]]) :=
  merge_identity_laws [.dict [("model", .str "a")]] rfl

/- ---------------------------------------------------------------------------
Search path, resolution and load trace.
--------------------------------------------------------------------------- -/

/-- Modelled from the spec: one search-path entry.  The `SearchPath` class of
`config_search_path.py` is not among the sources here; per the specification
an entry is an ordered pair of a provider tag and a location string, where
the location may carry the `pkg://` scheme prefix. -/
structure SearchPathEntry where
  provider : String
  path : String
deriving DecidableEq

/-- Embedding of `ConfigLoader._split_path`: strip a `pkg://` prefix and
report whether it was present. -/
def splitPath (path : String) : Bool × String :=
  if prefixOfChars "pkg://".toList path.toList then
    (true, ⟨path.toList.drop 6⟩)
  else (false, path)

theorem splitPath_not_pkg (p : String) (h : (splitPath p).1 = false) :
    (splitPath p).2 = p := by
  unfold splitPath at *
  by_cases hc : prefixOfChars "pkg://".toList p.toList
  · rw [if_pos hc] at h
    exact absurd h (by simp)
  · rw [if_neg hc]

/-- The loop-body condition of `_find_config` for one entry: split the scheme
prefix, form `<path>/<filepath>` and probe existence.  `ex` is the `_exists`
oracle over (is_pkg, filename) pairs, for probes that return normally. -/
def entryHit (ex : Bool → String → Bool) (filepath : String)
    (e : SearchPathEntry) : Bool :=
  ex (splitPath e.path).1 ((splitPath e.path).2 ++ "/" ++ filepath)

/-- Embedding of `ConfigLoader._find_config`: walk the search path in order
and stop at the first entry under which the file exists. -/
def findConfig (ex : Bool → String → Bool) (sp : List SearchPathEntry)
    (filepath : String) : Option SearchPathEntry :=
  match sp with
  | [] => none
  | e :: rest =>
    if entryHit ex filepath e then some e else findConfig ex rest filepath

/-- Embedding of the `LoadTrace` dataclass. -/
structure LoadTrace where
  filename : String
  path : Option String
  provider : Option String
deriving DecidableEq

/-- Embedding of `ConfigLoader.get_load_history`, which returns (a deep copy
of) the accumulated `all_config_checked` list of the loader instance. -/
def getLoadHistory (allConfigChecked : List LoadTrace) : List LoadTrace :=
  allConfigChecked

/-- Embedding of `ConfigLoader._load_config_impl`.  The document contents are
irrelevant here, so the result carries the resolved location the document was
read from (`none` when not found).  The trace list is the state of the
`all_config_checked` field, threaded through the call.  The dead branch in
which the file found by `_find_config` no longer exists maps to an error
(`assert False` in the source). -/
def loadConfigImpl (ex : Bool → String → Bool) (sp : List SearchPathEntry)
    (inputFile : String) (recordLoad : Bool) (trace : List LoadTrace) :
    Except String (Option String × List LoadTrace) :=
  match findConfig ex sp inputFile with
  | none =>
    .ok (none,
      if recordLoad then trace ++ [⟨inputFile, none, none⟩] else trace)
  | some e =>
    if (splitPath e.path).1 then
      .ok (some ((splitPath e.path).2 ++ "/" ++ inputFile),
        if recordLoad then
          trace ++ [⟨inputFile, some e.path, some e.provider⟩]
        else trace)
    else
      if ex false (e.path ++ "/" ++ inputFile) then
        .ok (some (e.path ++ "/" ++ inputFile),
          if recordLoad then
            trace ++ [⟨inputFile, some e.path, some e.provider⟩]
          else trace)
      else .error "AssertionError: found config vanished"

/-- C5: when a document name is resolvable under several search-path entries,
resolution returns the earliest entry with a hit, the document is loaded from
that entry's location, and the recorded load-trace entry carries that entry's
path and provider. -/
theorem search_path_first_hit (ex : Bool → String → Bool)
    (sp : List SearchPathEntry) (filepath : String) (i : Nat)
    (e : SearchPathEntry) (tr : List LoadTrace)
    (hi : sp.get? i = some e)
    (hhit : entryHit ex filepath e = true)
    (hmin : ∀ j e', j < i → sp.get? j = some e' →
      entryHit ex filepath e' = false) :
    findConfig ex sp filepath = some e ∧
    loadConfigImpl ex sp filepath true tr =
      .ok (some ((splitPath e.path).2 ++ "/" ++ filepath),
        tr ++ [⟨filepath, some e.path, some e.provider⟩]) := by
  have hfind : ∀ (l : List SearchPathEntry) (n : Nat), l.get? n = some e →
      (∀ j e', j < n → l.get? j = some e' →
        entryHit ex filepath e' = false) →
      findConfig ex l filepath = some e := by
    intro l
    induction l with
    | nil => intro n hn _; exact absurd hn (by simp)
    | cons x rest ih =>
      intro n hn hminl
      cases n with
      | zero =>
        have hx : x = e := Option.some.inj hn
        subst hx
        unfold findConfig
        rw [if_pos hhit]
      | succ m =>
        have hx : entryHit ex filepath x = false :=
          hminl 0 x (Nat.succ_pos m) rfl
        unfold findConfig
        rw [if_neg (by rw [hx]; exact Bool.false_ne_true)]
        exact ih m hn (fun j e' hj hje => hminl (j + 1) e'
          (Nat.succ_lt_succ hj) hje)
  have hf := hfind sp i hi hmin
  refine ⟨hf, ?_⟩
  unfold loadConfigImpl
  simp only [hf]
  by_cases hpkg : (splitPath e.path).1
  · simp [hpkg]
  · have hb : (splitPath e.path).1 = false := Bool.eq_false_iff.mpr hpkg
    have hpath := splitPath_not_pkg e.path hb
    have hex : ex false (e.path ++ "/" ++ filepath) = true := by
      have := hhit
      unfold entryHit at this
      rw [hb, hpath] at this
      exact this
    simp [hb, hex, hpath]

/-- Witness for C5: the document exists under both entries; the first entry
wins and its provider is recorded. -/
theorem search_path_first_hit_witness :
    findConfig (fun _ s => (s == "/c1/f.yaml") || (s == "/c2/f.yaml"))
        [⟨"p1", "/c1"⟩, ⟨"p2", "/c2"⟩] "f.yaml" = some ⟨"p1", "/c1"⟩ ∧
    loadConfigImpl (fun _ s => (s == "/c1/f.yaml") || (s == "/c2/f.yaml"))
        [⟨"p1", "/c1"⟩, ⟨"p2", "/c2"⟩] "f.yaml" true [] =
      .ok (some "/c1/f.yaml",
        [⟨"f.yaml", some "/c1", some "p1"⟩]) := by
  have h := search_path_first_hit
    (fun _ s => (s == "/c1/f.yaml") || (s == "/c2/f.yaml"))
    [⟨"p1", "/c1"⟩, ⟨"p2", "/c2"⟩] "f.yaml" 0 ⟨"p1", "/c1"⟩ [] rfl rfl
    (fun j e' hj _ => absurd hj (Nat.not_lt_zero j))
  exact ⟨h.1, h.2.trans rfl⟩

/-- Counterexample to C8 as stated: the loader's `all_config_checked` list is
never cleared between `load_configuration` invocations, so after a second
call the queryable history still contains the record appended by the first
call. -/
theorem load_trace_accumulates_counterexample :
    loadConfigImpl (fun _ _ => false) [⟨"prov", "/conf"⟩] "a.yaml" true [] =
      .ok (none, [⟨"a.yaml", none, none⟩]) ∧
    loadConfigImpl (fun _ _ => false) [⟨"prov", "/conf"⟩] "b.yaml" true
        [⟨"a.yaml", none, none⟩] =
      .ok (none, [⟨"a.yaml", none, none⟩, ⟨"b.yaml", none, none⟩]) ∧
    (⟨"a.yaml", none, none⟩ : LoadTrace) ∈
      getLoadHistory [⟨"a.yaml", none, none⟩, ⟨"b.yaml", none, none⟩] :=
  ⟨rfl, rfl, by simp [getLoadHistory]⟩

/-- C8 (amended): the load trace accumulates across calls on the same loader:
each probe only appends records to the `all_config_checked` state, so the
history queryable afterwards is the history before the call followed by the
records of the call. -/
theorem load_trace_cumulative (ex : Bool → String → Bool)
    (sp : List SearchPathEntry) (f : String) (rl : Bool)
    (tr tr' : List LoadTrace) (r : Option String)
    (h : loadConfigImpl ex sp f rl tr = .ok (r, tr')) :
    ∃ d, tr' = tr ++ d ∧ getLoadHistory tr' = getLoadHistory tr ++ d := by
  unfold loadConfigImpl at h
  rcases hf : findConfig ex sp f with _ | e <;> simp only [hf] at h
  · cases rl with
    | false =>
      refine ⟨[], ?_, ?_⟩ <;>
        simp only [if_neg (Bool.false_ne_true), getLoadHistory] at h ⊢ <;>
        · have h' := Except.ok.inj h
          simp only [Prod.mk.injEq] at h'
          simp [← h'.2]
    | true =>
      refine ⟨[⟨f, none, none⟩], ?_, ?_⟩ <;>
        simp only [if_pos rfl, getLoadHistory] at h ⊢ <;>
        · have h' := Except.ok.inj h
          simp only [Prod.mk.injEq] at h'
          simp [← h'.2]
  · by_cases hpkg : (splitPath e.path).1 = true
    · rw [if_pos hpkg] at h
      cases rl with
      | false =>
        refine ⟨[], ?_, ?_⟩ <;>
          simp only [if_neg (Bool.false_ne_true), getLoadHistory] at h ⊢ <;>
          · have h' := Except.ok.inj h
            simp only [Prod.mk.injEq] at h'
            simp [← h'.2]
      | true =>
        refine ⟨[⟨f, some e.path, some e.provider⟩], ?_, ?_⟩ <;>
          simp only [if_pos rfl, getLoadHistory] at h ⊢ <;>
          · have h' := Except.ok.inj h
            simp only [Prod.mk.injEq] at h'
            simp [← h'.2]
    · rw [if_neg hpkg] at h
      by_cases hex : ex false (e.path ++ "/" ++ f) = true
      · rw [if_pos hex] at h
        cases rl with
        | false =>
          refine ⟨[], ?_, ?_⟩ <;>
            simp only [if_neg (Bool.false_ne_true), getLoadHistory] at h ⊢ <;>
            · have h' := Except.ok.inj h
              simp only [Prod.mk.injEq] at h'
              simp [← h'.2]
        | true =>
          refine ⟨[⟨f, some e.path, some e.provider⟩], ?_, ?_⟩ <;>
            simp only [if_pos rfl, getLoadHistory] at h ⊢ <;>
            · have h' := Except.ok.inj h
              simp only [Prod.mk.injEq] at h'
              simp [← h'.2]
      · rw [if_neg hex] at h
        exact absurd h (by simp)

/-- Witness for C8 (amended) at a concrete input. -/
theorem load_trace_cumulative_witness :
    ∃ d, [(⟨"a.yaml", none, none⟩ : LoadTrace)] = [] ++ d ∧
      getLoadHistory [⟨"a.yaml", none, none⟩] = getLoadHistory [] ++ d :=
  load_trace_cumulative (fun _ _ => false) [⟨"prov", "/conf"⟩] "a.yaml" true
    [] [⟨"a.yaml", none, none⟩] none rfl

/- ---------------------------------------------------------------------------
Package-resource probing: ConfigLoader._exists and
ConfigLoader._split_module_and_resource.
--------------------------------------------------------------------------- -/

/-- Embedding of `ConfigLoader._split_module_and_resource`: split at the
first slash; with no slash the whole string is the module; with an empty
module the resource becomes the module. -/
def splitModuleAndResource (filename : String) : String × String :=
  match splitAtChar '/' filename.toList with
  | none => (filename, "")
  | some (m, r) => if m = [] then (⟨r⟩, "") else (⟨m⟩, ⟨r⟩)

/-- Outcome of a `pkg_resources.resource_exists` probe: a returned boolean,
a raised `ImportError`, or a raised `NotImplementedError`. -/
inductive PkgProbe where
  | found
  | absent
  | importFailure
  | notImplFailure
deriving DecidableEq

/-- Embedding of `ConfigLoader._exists`: for a package location, split the
module and resource and probe; `ImportError` is swallowed into a plain
not-found result while `NotImplementedError` is re-raised with guidance about
the missing `__init__.py`.  For a filesystem location, plain existence via
the `fs` oracle. -/
def existsImpl (probe : String → String → PkgProbe) (fs : String → Bool)
    (isPkg : Bool) (filename : String) : Except String Bool :=
  if isPkg then
    match probe (splitModuleAndResource filename).1
        (splitModuleAndResource filename).2 with
    | .found => .ok true
    | .absent => .ok false
    | .importFailure => .ok false
    | .notImplFailure =>
      .error ("Unable to load " ++ (splitModuleAndResource filename).1 ++
        "/" ++ (splitModuleAndResource filename).2 ++
        ", are you missing an __init__.py?")
  else .ok (fs filename)

/-- C9: a missing package module (ImportError) yields a plain not-found
result, while a package without a proper init manifest
(NotImplementedError) raises a distinct error whose message points at the
missing `__init__.py`; the two outcomes are never equal. -/
theorem package_probe_outcomes (probe : String → String → PkgProbe)
    (fs : String → Bool) (filename : String) :
    (probe (splitModuleAndResource filename).1
        (splitModuleAndResource filename).2 = .importFailure →
      existsImpl probe fs true filename = .ok false) ∧
    (probe (splitModuleAndResource filename).1
        (splitModuleAndResource filename).2 = .notImplFailure →
      existsImpl probe fs true filename =
        .error ("Unable to load " ++ (splitModuleAndResource filename).1 ++
          "/" ++ (splitModuleAndResource filename).2 ++
          ", are you missing an __init__.py?")) ∧
    ∀ msg, (Except.error msg : Except String Bool) ≠ .ok false := by
  refine ⟨?_, ?_, ?_⟩
  · intro h
    simp [existsImpl, h]
  · intro h
    simp [existsImpl, h]
  · intro msg hc
    exact absurd hc (by simp)

/-- Witness for C9 at a concrete input. -/
theorem package_probe_outcomes_witness :
    existsImpl (fun _ _ => .importFailure) (fun _ => false) true "mod/res" =
      .ok false ∧
    existsImpl (fun _ _ => .notImplFailure) (fun _ => false) true "mod/res" =
      .error "Unable to load mod/res, are you missing an __init__.py?" :=
  ⟨(package_probe_outcomes (fun _ _ => .importFailure) (fun _ => false)
      "mod/res").1 rfl,
    ((package_probe_outcomes (fun _ _ => .notImplFailure) (fun _ => false)
      "mod/res").2.1 rfl).trans rfl⟩

/- ---------------------------------------------------------------------------
ConfigLoader._merge_defaults: turning the defaults list into merge steps.
--------------------------------------------------------------------------- -/

/-- Number of leading dots of a character list (they do not count as an
extension separator in `os.path.splitext`). -/
def leadingDots : List Char → Nat
  | '.' :: rest => leadingDots rest + 1
  | _ => 0

/-- Suffix starting at the last dot of a character list, or `[]` when there
is no dot. -/
def extAfterLastDot : List Char → List Char
  | [] => []
  | c :: rest =>
    match extAfterLastDot rest with
    | [] => if c = '.' then c :: rest else []
    | e => e

/-- Final path component of a character list. -/
def basenameChars (s : List Char) : List Char :=
  (s.reverse.takeWhile (fun c => !(c == '/'))).reverse

/-- The extension as computed by `os.path.splitext`: last-dot suffix of the
final path component, where leading dots of the component do not start an
extension. -/
def splitextExt (s : String) : String :=
  let base := basenameChars s.toList
  ⟨extAfterLastDot (base.drop (leadingDots base))⟩

/-- Embedding of `_merge_defaults.get_filename`: append `.yaml` unless the
name already carries a `.yaml` or `.yml` extension. -/
def getFilename (configName : String) : String :=
  if splitextExt configName == ".yaml" || splitextExt configName == ".yml"
  then configName
  else configName ++ ".yaml"

/-- The action the inner loop of `_merge_defaults.merge_defaults` takes for
one defaults entry: `none` when the entry is skipped (choice `None` or
containing `_SKIP_`), otherwise the `(family, name, required)` triple passed
to `_merge_config`; `Except.error` where the Python raises (`next` on a dict
with no group key, or the `in` test applied to a boolean choice). -/
def entryPlan (e : DEntry) : Except String (Option (String × String × Bool)) :=
  match e with
  | .bare s =>
    if hasSkip s then .ok none
    else .ok (some ("", getFilename s, true))
  | .dict kvs =>
    let optVal := lookupKV kvs "optional"
    let isOpt : Bool :=
      match optVal with
      | none => false
      | some .null => false
      | some (.bool b) => b
      | some (.str s) => !(s == "")
    let kvs' :=
      match optVal with
      | none => kvs
      | some .null => kvs
      | some _ => removeKV kvs "optional"
    match kvs' with
    | [] => .error "StopIteration"
    | (family, v) :: _ =>
      match v with
      | .null => .ok none
      | .str name =>
        if hasSkip name then .ok none
        else .ok (some (family, getFilename name, !isOpt))
      | .bool _ => .error "TypeError: argument of type bool is not iterable"

/-- Embedding of `ConfigLoader._merge_config`, generic in the document type:
`loadDoc` parses the document at a resolved location and `mergeDoc` is
`OmegaConf.merge` (collaborator oracles).  The enumeration of sibling group
options inside the missing-config message is abstracted away; only the fact
that a required missing document raises is relevant to the claims. -/
def mergeConfig {α : Type _} (ex : Bool → String → Bool)
    (sp : List SearchPathEntry) (loadDoc : String → α)
    (mergeDoc : α → α → α) (cfg : α) (family name : String)
    (required : Bool) (trace : List LoadTrace) :
    Except String (α × List LoadTrace) :=
  let newCfg := if family == "" then name else family ++ "/" ++ name
  match loadConfigImpl ex sp newCfg true trace with
  | .error e => .error e
  | .ok (none, trace') =>
    if required then
      .error ("MissingConfigException: Could not load " ++ newCfg)
    else .ok (cfg, trace')
  | .ok (some resolved, trace') => .ok (mergeDoc cfg (loadDoc resolved), trace')

/-- The per-entry loop of `_merge_defaults.merge_defaults` over a defaults
(sub)list, threading the composed document and the load trace. -/
def mergeDefaultsGo {α : Type _} (ex : Bool → String → Bool)
    (sp : List SearchPathEntry) (loadDoc : String → α)
    (mergeDoc : α → α → α) :
    List DEntry → α → List LoadTrace → Except String (α × List LoadTrace)
  | [], cfg, tr => .ok (cfg, tr)
  | e :: rest, cfg, tr =>
    match entryPlan e with
    | .error msg => .error msg
    | .ok none => mergeDefaultsGo ex sp loadDoc mergeDoc rest cfg tr
    | .ok (some (fam, nm, req)) =>
      match mergeConfig ex sp loadDoc mergeDoc cfg fam nm req tr with
      | .error msg => .error msg
      | .ok (cfg', tr') => mergeDefaultsGo ex sp loadDoc mergeDoc rest cfg' tr'

/-- Embedding of `ConfigLoader._merge_defaults`: the defaults list is split
at `split_at` into the system and user lists, which are merged in turn (the
two passes visit the entries in list order).  The final deletion of the
`defaults` key is an operation on the document collaborator and is carried
out by the caller of this model. -/
def mergeDefaults {α : Type _} (ex : Bool → String → Bool)
    (sp : List SearchPathEntry) (loadDoc : String → α)
    (mergeDoc : α → α → α) (cfg : α) (defaults : List DEntry)
    (splitAt : Nat) (tr : List LoadTrace) :
    Except String (α × List LoadTrace) :=
  match mergeDefaultsGo ex sp loadDoc mergeDoc (defaults.take splitAt) cfg tr with
  | .error e => .error e
  | .ok (cfg1, tr1) =>
    mergeDefaultsGo ex sp loadDoc mergeDoc (defaults.drop splitAt) cfg1 tr1

/-- C7: a defaults entry carrying `optional: true` whose referenced document
is absent from the search path raises nothing: the merge step leaves the
composed document unchanged (only a miss is recorded in the trace) and
composition continues with the remaining entries. -/
theorem optional_missing_entry_skipped {α : Type _}
    (ex : Bool → String → Bool) (sp : List SearchPathEntry)
    (loadDoc : String → α) (mergeDoc : α → α → α)
    (kvs : KVs) (k0 nm : String) (tailKvs : KVs) (rest : List DEntry)
    (cfg : α) (tr : List LoadTrace)
    (hopt : lookupKV kvs "optional" = some (.bool true))
    (hrem : removeKV kvs "optional" = (k0, .str nm) :: tailKvs)
    (hns : hasSkip nm = false)
    (hk0 : (k0 == "") = false)
    (hmiss : findConfig ex sp (k0 ++ "/" ++ getFilename nm) = none) :
    mergeDefaultsGo ex sp loadDoc mergeDoc (.dict kvs :: rest) cfg tr =
      mergeDefaultsGo ex sp loadDoc mergeDoc rest cfg
        (tr ++ [⟨k0 ++ "/" ++ getFilename nm, none, none⟩]) := by
  have hplan : entryPlan (.dict kvs) =
      .ok (some (k0, getFilename nm, false)) := by
    unfold entryPlan
    simp only [hopt, hrem, hns]
    rfl
  have hload : loadConfigImpl ex sp (k0 ++ "/" ++ getFilename nm) true tr =
      .ok (none, tr ++ [⟨k0 ++ "/" ++ getFilename nm, none, none⟩]) := by
    unfold loadConfigImpl
    simp only [hmiss]
    rfl
  have hmc : mergeConfig ex sp loadDoc mergeDoc cfg k0 (getFilename nm)
      false tr =
      .ok (cfg, tr ++ [⟨k0 ++ "/" ++ getFilename nm, none, none⟩]) := by
    unfold mergeConfig
    simp only [hk0, Bool.false_eq_true, if_false, hload]
  simp only [mergeDefaultsGo, hplan, hmc]

/-- Witness for C7 at a concrete input: the optional `model: a` entry whose
document is missing leaves the composed value unchanged and only records a
miss. -/
theorem optional_missing_entry_skipped_witness :
    mergeDefaultsGo (fun _ _ => false) [⟨"p", "/c"⟩] (fun _ => (0 : Nat))
        (fun a _ => a)
        [.dict [("optional", .bool true), ("model", .str "a")]] 7 [] =
      mergeDefaultsGo (fun _ _ => false) [⟨"p", "/c"⟩] (fun _ => (0 : Nat))
        (fun a _ => a) [] 7 [⟨"model" ++ "/" ++ getFilename "a", none, none⟩] :=
  optional_missing_entry_skipped (fun _ _ => false) [⟨"p", "/c"⟩]
    (fun _ => (0 : Nat)) (fun a _ => a)
    [("optional", .bool true), ("model", .str "a")] "model" "a" [] [] 7 []
    rfl rfl rfl rfl rfl

/- ---------------------------------------------------------------------------
Claim C4: the sweep sentinel.
--------------------------------------------------------------------------- -/

/-- The sequence of (family, name) document requests `_merge_defaults` hands
to `_merge_config` for a defaults list.  Entries are planned independently of
the evolving document, so the requests are a pure function of the list, and
the system/user split of `_merge_defaults` concatenates them in list order;
request `(fam, nm)` makes `_merge_config` load the document `fam/nm`. -/
def planRequests : List DEntry → Except String (List (String × String))
  | [] => .ok []
  | e :: rest =>
    match entryPlan e with
    | .error msg => .error msg
    | .ok none => planRequests rest
    | .ok (some (fam, nm, _)) =>
      match planRequests rest with
      | .error msg => .error msg
      | .ok reqs => .ok ((fam, nm) :: reqs)

/-- Family of the document request a defaults entry gives rise to, if any. -/
def reqFamily (e : DEntry) : Option String :=
  match entryPlan e with
  | .ok (some (fam, _, _)) => some fam
  | _ => none

theorem planRequests_mem :
    ∀ (ds : List DEntry) (reqs : List (String × String)) (fam nm : String),
      planRequests ds = .ok reqs → (fam, nm) ∈ reqs →
      ∃ e, e ∈ ds ∧ reqFamily e = some fam := by
  intro ds
  induction ds with
  | nil =>
    intro reqs fam nm h hm
    simp only [planRequests] at h
    rw [← Except.ok.inj h] at hm
    exact absurd hm (by simp)
  | cons e rest ih =>
    intro reqs fam nm h hm
    simp only [planRequests] at h
    rcases hp : entryPlan e with msg | oplan <;> simp only [hp] at h
    · exact absurd h (by simp)
    rcases oplan with _ | ⟨f0, n0, r0⟩
    · obtain ⟨e', he', hf⟩ := ih reqs fam nm h hm
      exact ⟨e', List.mem_cons_of_mem _ he', hf⟩
    · rcases hrest : planRequests rest with msg | reqs' <;>
        simp only [hrest] at h
      · exact absurd h (by simp)
      · rw [← Except.ok.inj h] at hm
        rcases List.mem_cons.mp hm with h1 | h1
        · have hff : fam = f0 := by
            have := Prod.mk.injEq .. ▸ h1
            exact (Prod.mk.injEq .. |>.mp h1).1
          refine ⟨e, List.mem_cons_self _ _, ?_⟩
          rw [reqFamily, hp, hff]
        · obtain ⟨e', he', hf⟩ := ih reqs' fam nm hrest h1
          exact ⟨e', List.mem_cons_of_mem _ he', hf⟩

theorem lastIdxAux_mem (f : DEntry → Option String) (k : String) :
    ∀ (L : List DEntry) (base i : Nat), lastIdxAux f k L base = some i →
      ∃ d, L.get? (i - base) = some d ∧ f d = some k := by
  intro L
  induction L with
  | nil => intro base i h; exact absurd h (by simp [lastIdxAux])
  | cons x xs ih =>
    intro base i h
    simp only [lastIdxAux] at h
    rcases hrec : lastIdxAux f k xs (base + 1) with _ | j <;>
      simp only [hrec] at h
    · by_cases hx : f x = some k
      · rw [if_pos hx] at h
        have hib : base = i := Option.some.inj h
        refine ⟨x, ?_, hx⟩
        rw [← hib]
        simp
      · rw [if_neg hx] at h
        exact absurd h (by simp)
    · have hij : j = i := Option.some.inj h
      subst hij
      obtain ⟨d, hd, hfd⟩ := ih (base + 1) j hrec
      have hbound := lastIdxAux_bound f k xs (base + 1) j hrec
      refine ⟨d, ?_, hfd⟩
      have hsub : j - base = (j - (base + 1)) + 1 := by omega
      rw [hsub]
      simpa using hd

theorem keyToIdx_entry (ds : List DEntry) (k : String) (i : Nat)
    (h : keyToIdx ds k = some i) :
    ∃ w tail, ds.get? i = some (.dict ((k, w) :: tail)) := by
  obtain ⟨d, hd, hfd⟩ := lastIdxAux_mem phase1Key k ds 0 i h
  rw [Nat.sub_zero] at hd
  rcases d with s | kvs
  · exact absurd hfd (by simp [phase1Key])
  · rcases kvs with _ | ⟨⟨k1, w⟩, tail⟩
    · exact absurd hfd (by simp [phase1Key])
    · have hk1 : k1 = k := by
        have := hfd
        simp only [phase1Key] at this
        exact Option.some.inj this
      subst hk1
      exact ⟨w, tail, hd⟩

theorem keyToIdx_lt (ds : List DEntry) (k : String) (i : Nat)
    (h : keyToIdx ds k = some i) : i < ds.length := by
  have := lastIdxAux_bound phase1Key k ds 0 i h
  simpa using this.2

/-- A defaults entry whose leading key has been set to the `_SKIP_` sentinel
is skipped by the merge pass, whatever its remaining fields are. -/
theorem entryPlan_marked (k : String) (tail : KVs) (hk : ¬(k = "optional")) :
    entryPlan (.dict ((k, .str "_SKIP_") :: tail)) = .ok none := by
  have hskip : hasSkip "_SKIP_" = true := by decide
  rcases hopt : lookupKV tail "optional" with _ | w
  · simp [entryPlan, lookupKV, hk, hopt, hskip]
  · rcases w with s | b | _ <;>
      simp [entryPlan, lookupKV, removeKV, hk, hopt, hskip]

/-- Counterexample to C4 as stated, exhibiting two failure modes.  First,
with two defaults entries for the same group, the comma-valued override
`model=x,y` marks only the last entry with `_SKIP_`; the merge pass still
loads `model/a.yaml` — a document for the override's key — from the
untouched first entry (the final trace record is a hit, not a miss).
Second, an earlier null override makes the frozen `key_to_idx` map stale:
with overrides `["a=null", "b=1,2"]` over `[{a: x}, {b: y}, {model: m}]` the
comma override writes `_SKIP_` into the shifted entry `{model: m}` instead
of `{b: y}`, and the merge pass still requests `b/y.yaml`, a document for
the override's key. -/
theorem sweep_sentinel_counterexample :
    classifyOverrides (fun _ => false) ["model=x,y"]
        [.dict [("model", .str "a")], .dict [("model", .str "b")]] =
      .ok ⟨["model=x,y"], [], [],
        [.dict [("model", .str "a")], .dict [("model", .str "_SKIP_")]]⟩ ∧
    mergeDefaultsGo (fun _ _ => true) [⟨"prov", "/conf"⟩]
        (fun _ => (0 : Nat)) (fun a _ => a)
        [.dict [("model", .str "a")], .dict [("model", .str "_SKIP_")]] 0 [] =
      .ok (0, [⟨"model/a.yaml", some "/conf", some "prov"⟩]) ∧
    (⟨"model/a.yaml", some "/conf", some "prov"⟩ : LoadTrace).path ≠ none ∧
    classifyOverrides (fun _ => false) ["a=null", "b=1,2"]
        [.dict [("a", .str "x")], .dict [("b", .str "y")],
          .dict [("model", .str "m")]] =
      .ok ⟨["a=null", "b=1,2"], [], [],
        [.dict [("b", .str "y")],
          .dict [("model", .str "m"), ("b", .str "_SKIP_")]]⟩ ∧
    planRequests
        [.dict [("b", .str "y")],
          .dict [("model", .str "m"), ("b", .str "_SKIP_")]] =
      .ok [("b", "y.yaml"), ("model", "m.yaml")] :=
  ⟨rfl, rfl, by simp, rfl, rfl⟩

/-- Whether an override token deletes a defaults entry: its effective value
(after the comma rewrite) is the string null. -/
def overrideDeletes (t : String) : Bool :=
  match splitKeyVal t with
  | some (_, vt) => (if hasComma vt then "_SKIP_" else vt) == "null"
  | none => false

/-- Whether an override token carries the given key. -/
def overrideHasKey (k t : String) : Bool :=
  match splitKeyVal t with
  | some (kt, _) => kt == k
  | none => false

theorem getq_mem {α : Type _} :
    ∀ (l : List α) (n : Nat) (a : α), l.get? n = some a → a ∈ l := by
  intro l
  induction l with
  | nil => intro n a h; exact absurd h (by simp)
  | cons x xs ih =>
    intro n a h
    cases n with
    | zero => exact List.mem_cons.mpr (Or.inl (Option.some.inj h).symm)
    | succ m => exact List.mem_cons_of_mem _ (ih m a h)

theorem getq_lt {α : Type _} (l : List α) (n : Nat) (a : α)
    (h : l.get? n = some a) : n < l.length := by
  by_contra hge
  rw [List.get?_eq_none.mpr (Nat.le_of_not_lt hge)] at h
  exact absurd h (by simp)

theorem getq_append_left {α : Type _} :
    ∀ (l1 l2 : List α) (n : Nat), n < l1.length →
      (l1 ++ l2).get? n = l1.get? n := by
  intro l1
  induction l1 with
  | nil => intro l2 n h; exact absurd h (by simp)
  | cons x xs ih =>
    intro l2 n h
    cases n with
    | zero => rfl
    | succ m => exact ih l2 m (Nat.lt_of_succ_lt_succ h)

theorem memOfSet {α : Type _} :
    ∀ (l : List α) (n : Nat) (b a : α), a ∈ l.set n b → a ∈ l ∨ a = b := by
  intro l
  induction l with
  | nil => intro n b a h; exact absurd h (by simp)
  | cons x xs ih =>
    intro n b a h
    cases n with
    | zero =>
      rcases List.mem_cons.mp h with h1 | h1
      · exact Or.inr h1
      · exact Or.inl (List.mem_cons_of_mem _ h1)
    | succ m =>
      rcases List.mem_cons.mp h with h1 | h1
      · exact Or.inl (List.mem_cons.mpr (Or.inl h1))
      · rcases ih m b a h1 with h2 | h2
        · exact Or.inl (List.mem_cons_of_mem _ h2)
        · exact Or.inr h2

theorem setKV_ne_nil (kvs : KVs) (k : String) (v : CVal) :
    setKV kvs k v ≠ [] := by
  cases kvs with
  | nil => simp [setKV]
  | cons p rest =>
    obtain ⟨k', v'⟩ := p
    by_cases h : k' = k <;> simp [setKV, h]

/-- Item assignment into a non-empty dictionary never changes its first
key. -/
theorem phase1Key_setKV (k0 : String) (w : CVal) (rest : KVs)
    (kt : String) (v : CVal) :
    phase1Key (.dict (setKV ((k0, w) :: rest) kt v)) = some k0 := by
  by_cases h : k0 = kt
  · subst h
    simp [setKV, phase1Key]
  · simp [setKV, h, phase1Key]

theorem dictsHaveKeys_set (ds : List DEntry) (m : Nat) (kvs : KVs)
    (h : dictsHaveKeys ds = true) (hne : kvs ≠ []) :
    dictsHaveKeys (ds.set m (.dict kvs)) = true := by
  unfold dictsHaveKeys at *
  rw [List.all_eq_true] at *
  intro e he
  rcases memOfSet ds m (.dict kvs) e he with h1 | h1
  · exact h e h1
  · subst h1
    cases kvs with
    | nil => exact absurd rfl hne
    | cons p r => rfl

/-- The group-rewrite loop over a concatenated snapshot is the sequential
composition of the loops over the pieces. -/
theorem adoGo_append (kti : String → Option Nat) :
    ∀ (X Y : List String) (st : List String × List DEntry × List String),
      adoGo kti (X ++ Y) st =
        match adoGo kti X st with
        | .error e => .error e
        | .ok st' => adoGo kti Y st' := by
  intro X
  induction X with
  | nil => intro Y st; simp [adoGo]
  | cons o X' ih =>
    intro Y st
    obtain ⟨live, ds, cons⟩ := st
    simp only [List.cons_append, adoGo]
    rcases hsplit : splitKeyVal o with _ | ⟨k, v⟩ <;> simp only [hsplit] <;>
      try rfl
    rcases hk : kti k with _ | i <;> simp only [hk]
    · exact ih Y (live, ds, cons)
    · by_cases hv : (if hasComma v = true then "_SKIP_" else v) = "null"
      · rw [if_pos hv, if_pos hv]
        by_cases hlen : i < ds.length
        · rw [if_pos hlen, if_pos hlen]
          exact ih Y _
        · rw [if_neg hlen, if_neg hlen]
      · rw [if_neg hv, if_neg hv]
        rcases hget : ds.get? i with _ | e <;> simp only [hget] <;> try rfl
        rcases hass : entryAssign e k
            (.str (if hasComma v = true then "_SKIP_" else v)) with
          err | e' <;> simp only [hass] <;> try rfl
        exact ih Y _

/-- Invariants of the group-rewrite loop over a snapshot that performs no
deletion: the defaults list keeps its length, every entry keeps its first
key, and every slot that no snapshot token addresses through `key_to_idx`
keeps its value. -/
theorem adoGo_no_null (kti : String → Option Nat) :
    ∀ (snap live : List String) (ds : List DEntry)
      (cons live' : List String) (ds' : List DEntry) (cons' : List String),
      (∀ t ∈ snap, overrideDeletes t = false) →
      dictsHaveKeys ds = true →
      adoGo kti snap (live, ds, cons) = .ok (live', ds', cons') →
      dictsHaveKeys ds' = true ∧
      ds'.length = ds.length ∧
      (∀ idx, (ds'.get? idx).map phase1Key = (ds.get? idx).map phase1Key) ∧
      (∀ idx,
        (∀ t ∈ snap, ∀ kt vt, splitKeyVal t = some (kt, vt) →
          kti kt ≠ some idx) →
        ds'.get? idx = ds.get? idx) := by
  intro snap
  induction snap with
  | nil =>
    intro live ds cons live' ds' cons' _ hwfd h
    simp only [adoGo] at h
    have h' := Except.ok.inj h
    simp only [Prod.mk.injEq] at h'
    obtain ⟨_, h2, _⟩ := h'
    refine ⟨?_, ?_, ?_, ?_⟩ <;> simp [← h2, hwfd]
  | cons t rest ih =>
    intro live ds cons live' ds' cons' hnn hwfd h
    have hnn' : ∀ x ∈ rest, overrideDeletes x = false :=
      fun x hx => hnn x (List.mem_cons_of_mem _ hx)
    simp only [adoGo] at h
    rcases hsplit : splitKeyVal t with _ | ⟨kt, vt⟩ <;>
      simp only [hsplit] at h
    · exact absurd h (by simp)
    · rcases hk : kti kt with _ | m <;> simp only [hk] at h
      · obtain ⟨ih1, ih2, ih3, ih4⟩ :=
          ih live ds cons live' ds' cons' hnn' hwfd h
        exact ⟨ih1, ih2, ih3, fun idx hcnd =>
          ih4 idx (fun x hx kx vx hsx =>
            hcnd x (List.mem_cons_of_mem _ hx) kx vx hsx)⟩
      · have hdel := hnn t (List.mem_cons_self _ _)
        unfold overrideDeletes at hdel
        simp only [hsplit] at hdel
        have hndel : ¬((if hasComma vt = true then "_SKIP_" else vt) =
            "null") := by
          intro hc
          rw [hc] at hdel
          simp at hdel
        rw [if_neg hndel] at h
        rcases hget : ds.get? m with _ | e <;> simp only [hget] at h
        · exact absurd h (by simp)
        · rcases e with s | kvs
          · simp only [entryAssign] at h
            exact absurd h (by simp)
          · simp only [entryAssign] at h
            have hkvs_ne : kvs ≠ [] := by
              have hmem := getq_mem ds m (.dict kvs) hget
              unfold dictsHaveKeys at hwfd
              rw [List.all_eq_true] at hwfd
              have := hwfd _ hmem
              intro hc
              subst hc
              simp at this
            have hwfd' : dictsHaveKeys (ds.set m (.dict (setKV kvs kt
                (.str (if hasComma vt = true then "_SKIP_" else vt))))) =
                true :=
              dictsHaveKeys_set ds m _ hwfd (setKV_ne_nil kvs kt _)
            obtain ⟨ih1, ih2, ih3, ih4⟩ :=
              ih _ _ _ live' ds' cons' hnn' hwfd' h
            have hmlt : m < ds.length := getq_lt ds m _ hget
            refine ⟨ih1, by rw [ih2, List.length_set], ?_, ?_⟩
            · intro idx
              rw [ih3 idx]
              by_cases hmi : m = idx
              · subst hmi
                rw [getq_set_eq ds m _ hmlt, hget]
                rcases kvs with _ | ⟨⟨k0, w0⟩, kvr⟩
                · exact absurd rfl hkvs_ne
                · have hpk := phase1Key_setKV k0 w0 kvr kt
                    (.str (if hasComma vt = true then "_SKIP_" else vt))
                  simp only [Option.map_some']
                  rw [hpk]
                  rfl
              · rw [getq_set_ne ds m idx _ hmi]
            · intro idx hcnd
              have hm_ne : m ≠ idx := by
                have hne := hcnd t (List.mem_cons_self _ _) kt vt hsplit
                rw [hk] at hne
                intro hc
                exact hne (by rw [hc])
              rw [ih4 idx (fun x hx kx vx hsx =>
                hcnd x (List.mem_cons_of_mem _ hx) kx vx hsx),
                getq_set_ne ds m idx _ hm_ne]

/-- The free-defaults loop only appends entries, one single-key dictionary
per consumed comma-free token. -/
theorem afdGo_appends (exSP : String → Bool) :
    ∀ (snap live : List String) (ds : List DEntry)
      (cons live' : List String) (ds' : List DEntry) (cons' : List String),
      afdGo exSP snap (live, ds, cons) = .ok (live', ds', cons') →
      ∃ ap, ds' = ds ++ ap ∧
        ∀ e ∈ ap, ∃ t kt vt, t ∈ snap ∧ splitKeyVal t = some (kt, vt) ∧
          hasComma vt = false ∧ e = .dict [(kt, .str vt)] := by
  intro snap
  induction snap with
  | nil =>
    intro live ds cons live' ds' cons' h
    simp only [afdGo] at h
    have h' := Except.ok.inj h
    simp only [Prod.mk.injEq] at h'
    refine ⟨[], by simp [← h'.2.1], ?_⟩
    intro e he
    exact absurd he (List.not_mem_nil e)
  | cons o rest ih =>
    intro live ds cons live' ds' cons' h
    simp only [afdGo] at h
    rcases hsplit : splitKeyVal o with _ | ⟨k, v⟩ <;>
      simp only [hsplit] at h
    · exact absurd h (by simp)
    · by_cases hex : exSP k
      · rw [if_pos hex] at h
        by_cases hc : hasComma v = true
        · rw [if_pos hc] at h
          obtain ⟨ap, hap, hchar⟩ := ih _ _ _ live' ds' cons' h
          refine ⟨ap, hap, ?_⟩
          intro e he
          obtain ⟨t, kt, vt, ht, h5, h6, h7⟩ := hchar e he
          exact ⟨t, kt, vt, List.mem_cons_of_mem _ ht, h5, h6, h7⟩
        · rw [if_neg hc] at h
          obtain ⟨ap, hap, hchar⟩ := ih _ _ _ live' ds' cons' h
          refine ⟨.dict [(k, .str v)] :: ap, ?_, ?_⟩
          · rw [hap]
            simp [List.append_assoc]
          · intro e he
            rcases List.mem_cons.mp he with h1 | h1
            · exact ⟨o, k, v, List.mem_cons_self _ _, hsplit,
                Bool.eq_false_iff.mpr hc, h1⟩
            · obtain ⟨t, kt, vt, ht, h5, h6, h7⟩ := hchar e h1
              exact ⟨t, kt, vt, List.mem_cons_of_mem _ ht, h5, h6, h7⟩
      · rw [if_neg hex] at h
        obtain ⟨ap, hap, hchar⟩ := ih _ _ _ live' ds' cons' h
        refine ⟨ap, hap, ?_⟩
        intro e he
        obtain ⟨t, kt, vt, ht, h5, h6, h7⟩ := hchar e he
        exact ⟨t, kt, vt, List.mem_cons_of_mem _ ht, h5, h6, h7⟩

/-- C4 (amended): consider a comma-valued override in a `load_configuration`
call whose override list performs no group deletion (no override's effective
value is null, so the frozen `key_to_idx` map never goes stale) and contains
no other override with the same key, the key being a group name other than
the literal optional.  The override is consumed and appears in the
recorded-overrides bookkeeping.  If its key is the leading key of some
defaults entry, the last such entry has its choice set to `_SKIP_` in place
and is skipped by the merge pass, and no document of that family is
requested, provided no other entry of the final defaults list requests the
same family.  If the key is unbound but resolves in the search path, the
override is consumed by the free-defaults phase and the final defaults list
contains no entry whose leading key is the override's key. -/
theorem sweep_sentinel (exSP : String → Bool) (ds : List DEntry)
    (A B : List String) (o k v : String) (r : ClassifyResult)
    (hsplit : splitKeyVal o = some (k, v))
    (hcomma : hasComma v = true)
    (hko : ¬(k = "optional"))
    (hnonull : (A ++ o :: B).all (fun t => !overrideDeletes t) = true)
    (huniqk : (A ++ B).all (fun t => !overrideHasKey k t) = true)
    (hrun : classifyOverrides exSP (A ++ o :: B) ds = .ok r) :
    o ∈ r.consumed1 ++ r.consumed2 ++ r.remaining ∧
    (∀ j, keyToIdx ds k = some j →
      ∃ w tail, ds.get? j = some (.dict ((k, w) :: tail)) ∧
        r.defaults.get? j = some (.dict ((k, .str "_SKIP_") :: tail)) ∧
        o ∈ r.consumed1 ∧
        entryPlan (.dict ((k, .str "_SKIP_") :: tail)) = .ok none ∧
        (∀ reqs, planRequests r.defaults = .ok reqs →
          (∀ idx e', r.defaults.get? idx = some e' → ¬(idx = j) →
            reqFamily e' ≠ some k) →
          ∀ fam nm, (fam, nm) ∈ reqs → ¬(fam = k))) ∧
    (keyToIdx ds k = none → exSP k = true →
      o ∈ r.consumed2 ∧
      ∀ e', e' ∈ r.defaults → phase1Key e' ≠ some k) := by
  -- unpack the classification run
  unfold classifyOverrides at hrun
  rcases h1 : applyDefaultsOverrides (A ++ o :: B) ds with e1 | ⟨ov1, ds1, c1⟩ <;>
    simp only [h1] at hrun
  · exact absurd hrun (by simp)
  rcases h2 : applyFreeDefaults exSP ds1 ov1 with e2 | ⟨ov2, ds2, c2⟩ <;>
    simp only [h2] at hrun
  · exact absurd hrun (by simp)
  have hr := Except.ok.inj hrun
  have hwfd : dictsHaveKeys ds = true := by
    by_contra hc
    have hf : dictsHaveKeys ds = false := Bool.eq_false_iff.mpr hc
    unfold applyDefaultsOverrides at h1
    rw [hf] at h1
    simp at h1
  have h1' : adoGo (keyToIdx ds) (A ++ o :: B) (A ++ o :: B, ds, []) =
      .ok (ov1, ds1, c1) := by
    unfold applyDefaultsOverrides at h1
    rwa [if_pos hwfd] at h1
  have h2' : afdGo exSP ov1 (ov1, ds1, []) = .ok (ov2, ds2, c2) := h2
  have hph1 := adoGo_ok (keyToIdx ds) (A ++ o :: B) [] ds [] ov1 ds1 c1
    (by intro t ht; exact absurd ht (List.not_mem_nil t)) h1'
  have hc1 : c1 = (A ++ o :: B).filter (phase1Hit (keyToIdx ds)) := by
    simpa using hph1.2
  have hov1 : ov1 = (A ++ o :: B).filter
      (fun t => !phase1Hit (keyToIdx ds) t) := by
    simpa using hph1.1
  have hph2 := afdGo_ok exSP ov1 [] ds1 [] ov2 ds2 c2
    (by intro t ht; exact absurd ht (List.not_mem_nil t)) h2'
  have hc2 : c2 = ov1.filter (phase2Hit exSP) := by simpa using hph2.2
  have hov2 : ov2 = ov1.filter (fun t => !phase2Hit exSP t) := by
    simpa using hph2.1
  have hmemO : o ∈ A ++ o :: B :=
    List.mem_append.mpr (Or.inr (List.mem_cons_self o B))
  have hnnO : ∀ t ∈ A ++ o :: B, overrideDeletes t = false := by
    intro t ht
    have := List.all_eq_true.mp hnonull t ht
    simpa using this
  have huqO : ∀ t, t ∈ A ++ B → overrideHasKey k t = false := by
    intro t ht
    have := List.all_eq_true.mp huniqk t ht
    simpa using this
  have hrc1 : r.consumed1 = c1 := by rw [← hr]
  have hrc2 : r.consumed2 = c2 := by rw [← hr]
  have hrrem : r.remaining = ov2.filter (fun x => !((c1 ++ c2).contains x)) := by
    rw [← hr]
  have hrdef : r.defaults = ds2 := by rw [← hr]
  obtain ⟨apl, hap, hapchar⟩ :=
    afdGo_appends exSP ov1 ov1 ds1 [] ov2 ds2 c2 h2'
  refine ⟨?_, ?_, ?_⟩
  · -- the override lands in the bookkeeping concatenation
    rw [hrc1, hrc2, hrrem]
    by_cases hp1 : phase1Hit (keyToIdx ds) o = true
    · refine List.mem_append.mpr (Or.inl (List.mem_append.mpr (Or.inl ?_)))
      rw [hc1]
      exact List.mem_filter.mpr ⟨hmemO, hp1⟩
    · have hp1f : phase1Hit (keyToIdx ds) o = false := Bool.eq_false_iff.mpr hp1
      have hoov1 : o ∈ ov1 := by
        rw [hov1]
        exact List.mem_filter.mpr ⟨hmemO, by simp [hp1f]⟩
      by_cases hp2 : phase2Hit exSP o = true
      · refine List.mem_append.mpr (Or.inl (List.mem_append.mpr (Or.inr ?_)))
        rw [hc2]
        exact List.mem_filter.mpr ⟨hoov1, hp2⟩
      · have hp2f : phase2Hit exSP o = false := Bool.eq_false_iff.mpr hp2
        refine List.mem_append.mpr (Or.inr ?_)
        have hoov2 : o ∈ ov2 := by
          rw [hov2]
          exact List.mem_filter.mpr ⟨hoov1, by simp [hp2f]⟩
        refine List.mem_filter.mpr ⟨hoov2, ?_⟩
        have hnc : o ∉ c1 ++ c2 := by
          rw [hc1, hc2]
          intro hm
          rcases List.mem_append.mp hm with hm1 | hm1
          · have := List.of_mem_filter hm1
            rw [hp1f] at this
            exact Bool.false_ne_true this
          · have := List.of_mem_filter hm1
            rw [hp2f] at this
            exact Bool.false_ne_true this
        simp [hnc]
  · -- the key is the leading key of the (last) matching defaults entry
    intro j hkj
    obtain ⟨w, tail, hget⟩ := keyToIdx_entry ds k j hkj
    have hjlt : j < ds.length := keyToIdx_lt ds k j hkj
    have hcond : ∀ t, t ∈ A ++ B → ∀ kt vt, splitKeyVal t = some (kt, vt) →
        keyToIdx ds kt ≠ some j := by
      intro t ht kt vt hs hc
      obtain ⟨w', tail', hget'⟩ := keyToIdx_entry ds kt j hc
      rw [hget] at hget'
      have hdict := Option.some.inj hget'
      injection hdict with hkvs
      injection hkvs with hpair htail2
      injection hpair with hkk hww
      have hhk := huqO t ht
      unfold overrideHasKey at hhk
      simp only [hs] at hhk
      rw [← hkk] at hhk
      simp at hhk
    -- split the phase-1 run at the override
    have hsegm := adoGo_append (keyToIdx ds) A (o :: B) (A ++ o :: B, ds, [])
    have hrunO := h1'
    rcases hA : adoGo (keyToIdx ds) A (A ++ o :: B, ds, []) with eA | stA
    · rw [hA] at hsegm
      rw [hsegm] at hrunO
      exact absurd hrunO (by simp)
    · obtain ⟨liveA, dsA, consA⟩ := stA
      simp only [hA] at hsegm
      rw [hsegm] at hrunO
      obtain ⟨hwfA, hlenA, hkeysA, huntA⟩ := adoGo_no_null (keyToIdx ds) A
        (A ++ o :: B) ds [] liveA dsA consA
        (fun t ht => hnnO t (List.mem_append.mpr (Or.inl ht))) hwfd hA
      have hdsAj : dsA.get? j = some (.dict ((k, w) :: tail)) := by
        rw [huntA j (fun t ht kt vt hs =>
          hcond t (List.mem_append.mpr (Or.inl ht)) kt vt hs)]
        exact hget
      have hvs : (if hasComma v = true then "_SKIP_" else v) = "_SKIP_" := by
        simp [hcomma]
      have hsetkv : setKV ((k, w) :: tail) k (.str "_SKIP_") =
          (k, .str "_SKIP_") :: tail := by
        simp [setKV]
      simp only [adoGo, hsplit, hkj, hvs] at hrunO
      rw [if_neg (by decide : ¬("_SKIP_" = "null"))] at hrunO
      simp only [hdsAj, entryAssign, hsetkv] at hrunO
      -- hrunO : the B-segment run from the marked state
      have hwfset : dictsHaveKeys
          (dsA.set j (.dict ((k, .str "_SKIP_") :: tail))) = true :=
        dictsHaveKeys_set dsA j _ hwfA (by simp)
      obtain ⟨hwfB, hlenB, hkeysB, huntB⟩ := adoGo_no_null (keyToIdx ds) B
        _ _ _ ov1 ds1 c1
        (fun t ht => hnnO t
          (List.mem_append.mpr (Or.inr (List.mem_cons_of_mem o ht))))
        hwfset hrunO
      have hds1j : ds1.get? j = some (.dict ((k, .str "_SKIP_") :: tail)) := by
        rw [huntB j (fun t ht kt vt hs =>
          hcond t (List.mem_append.mpr (Or.inr ht)) kt vt hs)]
        exact getq_set_eq dsA j _ (by rw [hlenA]; exact hjlt)
      have hds2j : ds2.get? j = some (.dict ((k, .str "_SKIP_") :: tail)) := by
        rw [hap, getq_append_left ds1 apl j
          (by rw [hlenB, List.length_set, hlenA]; exact hjlt)]
        exact hds1j
      have hoc1 : o ∈ c1 := by
        rw [hc1]
        refine List.mem_filter.mpr ⟨hmemO, ?_⟩
        simp [phase1Hit, hsplit, hkj]
      refine ⟨w, tail, hget, ?_, ?_, entryPlan_marked k tail hko, ?_⟩
      · rw [hrdef]
        exact hds2j
      · rw [hrc1]
        exact hoc1
      · intro reqs hreqs hU fam nm hmem hfk
        subst hfk
        obtain ⟨e', he', hfe⟩ := planRequests_mem r.defaults reqs fam nm
          hreqs hmem
        obtain ⟨idx, hidx⟩ := List.get?_of_mem he'
        by_cases hij : idx = j
        · subst hij
          rw [hrdef, hds2j] at hidx
          have he'm : e' = .dict ((fam, .str "_SKIP_") :: tail) :=
            (Option.some.inj hidx).symm
          rw [he'm, reqFamily, entryPlan_marked fam tail hko] at hfe
          exact absurd hfe (by simp)
        · exact (hU idx e' hidx hij) hfe
  · -- the key is unbound: free-defaults consumption, nothing for the group
    intro hnone hex
    constructor
    · rw [hrc2, hc2]
      have hp1f : phase1Hit (keyToIdx ds) o = false := by
        simp [phase1Hit, hsplit, hnone]
      refine List.mem_filter.mpr ⟨?_, ?_⟩
      · rw [hov1]
        exact List.mem_filter.mpr ⟨hmemO, by simp [hp1f]⟩
      · simp [phase2Hit, hsplit, hex]
    · intro e' he' hpk
      rw [hrdef, hap] at he'
      rcases List.mem_append.mp he' with h3 | h3
      · obtain ⟨-, -, hkeysF, -⟩ := adoGo_no_null (keyToIdx ds)
          (A ++ o :: B) (A ++ o :: B) ds [] ov1 ds1 c1 hnnO hwfd h1'
        obtain ⟨idx, hidx⟩ := List.get?_of_mem h3
        have hkmap := hkeysF idx
        rw [hidx] at hkmap
        rcases hdso : ds.get? idx with _ | orig <;> rw [hdso] at hkmap
        · simp at hkmap
        · simp only [Option.map_some'] at hkmap
          have horigk : phase1Key orig = some k := by
            rw [← Option.some.inj hkmap]
            exact hpk
          have hsome := lastIdxAux_isSome_of_mem phase1Key k ds 0 orig
            (getq_mem ds idx orig hdso) horigk
          unfold keyToIdx at hnone
          rw [hnone] at hsome
          exact absurd hsome (by simp)
      · obtain ⟨t, kt, vt, ht, hst, hnc, hee⟩ := hapchar e' h3
        rw [hee] at hpk
        have hkt : kt = k := by
          simpa [phase1Key] using hpk
        have htO : t ∈ A ++ o :: B := by
          rw [hov1] at ht
          exact List.mem_of_mem_filter ht
        rcases List.mem_append.mp htO with h4 | h4
        · have hhk := huqO t (List.mem_append.mpr (Or.inl h4))
          unfold overrideHasKey at hhk
          simp only [hst] at hhk
          rw [hkt] at hhk
          simp at hhk
        · rcases List.mem_cons.mp h4 with h5 | h5
          · rw [h5, hsplit] at hst
            have hpair := Option.some.inj hst
            injection hpair with hk2 hv2
            rw [← hv2, hcomma] at hnc
            exact absurd hnc (by simp)
          · have hhk := huqO t (List.mem_append.mpr (Or.inr h5))
            unfold overrideHasKey at hhk
            simp only [hst] at hhk
            rw [hkt] at hhk
            simp at hhk

/-- Witness for C4 at a concrete input exercising the marking branch: in the
two-override call `["model=a,b", "lr=0.1"]` the comma-valued override marks
the `model` entry with `_SKIP_`, is consumed by phase 1, and the marked
entry is skipped by the merge pass. -/
theorem sweep_sentinel_witness :
    ∃ w tail,
      ([DEntry.dict [("model", CVal.str "old")]] : List DEntry).get? 0 =
        some (.dict (("model", w) :: tail)) ∧
      ([DEntry.dict [("model", CVal.str "_SKIP_")]] : List DEntry).get? 0 =
        some (.dict (("model", .str "_SKIP_") :: tail)) ∧
      "model=a,b" ∈ (["model=a,b"] : List String) ∧
      entryPlan (.dict (("model", .str "_SKIP_") :: tail)) = .ok none := by
  have h := sweep_sentinel (fun _ => false) [.dict [("model", .str "old")]]
    [] ["lr=0.1"] "model=a,b" "model" "a,b"
    ⟨["model=a,b"], [], ["lr=0.1"], [.dict [("model", .str "_SKIP_")]]⟩
    rfl rfl (by decide) rfl rfl rfl
  obtain ⟨w, tail, hget, hmark, hcons, hplan, -⟩ := h.2.1 0 rfl
  exact ⟨w, tail, hget, hmark, hcons, hplan⟩

/- ---------------------------------------------------------------------------
Claim C6: strictness.  The document tree and its per-subtree struct flag
belong to the structured-document collaborator (omegaconf), which is outside
the sources here; both are modelled from the spec (section 3: a tagged tree
with a per-subtree strict flag rejecting unknown keys on merge, the
effective flag of a node being the nearest explicitly set flag above it,
defaulting to non-strict).
--------------------------------------------------------------------------- -/

/-- Modelled from the spec: a structured document; every map node carries an
optional strict flag. -/
inductive CTree where
  | leaf (v : CVal)
  | node (flag : Option Bool) (children : List (String × CTree))

/-- Child lookup in a map node. -/
def lookupChild : List (String × CTree) → String → Option CTree
  | [], _ => none
  | (k', t) :: rest, k => if k' = k then some t else lookupChild rest k

/-- Child update-or-append in a map node. -/
def setChild : List (String × CTree) → String → CTree → List (String × CTree)
  | [], k, t => [(k, t)]
  | (k', t') :: rest, k, t =>
    if k' = k then (k, t) :: rest else (k', t') :: setChild rest k t

/-- A fresh branch of flagless nodes ending in a leaf. -/
def mkPath : List String → CVal → CTree
  | [], v => .leaf v
  | k :: rest, v => .node none [(k, mkPath rest v)]

/-- Modelled from the spec: dotted-path assignment with strict checking.
The last argument is the effective strict flag inherited from the parent; a
node's own flag, when set, overrides it.  Setting a key absent from an
effectively strict node is rejected; under a non-strict node the missing
branch is created. -/
def dotSet : CTree → List String → CVal → Bool → Except String CTree
  | _, [], v, _ => .ok (.leaf v)
  | .node f cs, k :: rest, v, inherited =>
    match lookupChild cs k with
    | some child =>
      match dotSet child rest v (f.getD inherited) with
      | .ok child' => .ok (.node f (setChild cs k child'))
      | .error e => .error e
    | none =>
      if f.getD inherited then
        .error ("Strict mode: key " ++ k ++ " not found")
      else .ok (.node f (setChild cs k (mkPath rest v)))
  | .leaf _, _ :: _, _, _ => .error "Cannot set a child of a leaf"

/-- Modelled from the spec: `OmegaConf.set_struct` writes the strict flag of
the root node of a subtree. -/
def setStruct : CTree → Option Bool → CTree
  | .node _ cs, b => .node b cs
  | .leaf v, _ => .leaf v

/-- The strictness engagement of `load_configuration`:
`OmegaConf.set_struct(cfg.hydra, True)` followed by
`OmegaConf.set_struct(cfg, strict)` (the latter leaves the flag unset when
`strict` is `None`). -/
def engageStrict (cfg : CTree) (strict : Option Bool) : CTree :=
  let cfg1 :=
    match cfg with
    | .node f cs =>
      match lookupChild cs "hydra" with
      | some h => CTree.node f (setChild cs "hydra" (setStruct h (some true)))
      | none => CTree.node f cs
    | t => t
  setStruct cfg1 strict

/-- Splitting a dotted key into path segments. -/
def splitDotsChars : List Char → List (List Char)
  | [] => [[]]
  | c :: rest =>
    let r := splitDotsChars rest
    if c = '.' then [] :: r
    else
      match r with
      | [] => [[c]]
      | h :: t => (c :: h) :: t

/-- Path of a dotted override key. -/
def parsePath (s : String) : List String :=
  (splitDotsChars s.toList).map (fun l => ⟨l⟩)

/-- Modelled from the spec: `cfg.merge_with_dotlist` — apply each `key=value`
token by dotted-path assignment, starting from the non-strict ambient
default at the root. -/
def mergeWithDotlist (t : CTree) (tokens : List String) : Except String CTree :=
  match tokens with
  | [] => .ok t
  | tok :: rest =>
    match splitKeyVal tok with
    | none => .error "Invalid dotlist token"
    | some (k, v) =>
      match dotSet t (parsePath k) (.str v) false with
      | .error e => .error e
      | .ok t' => mergeWithDotlist t' rest

theorem lookupChild_setChild_self :
    ∀ (cs : List (String × CTree)) (k : String) (t : CTree),
      lookupChild (setChild cs k t) k = some t := by
  intro cs
  induction cs with
  | nil => intro k t; simp [setChild, lookupChild]
  | cons p rest ih =>
    intro k t
    obtain ⟨k', t'⟩ := p
    by_cases hk : k' = k
    · simp [setChild, hk, lookupChild]
    · simp only [setChild, if_neg hk, lookupChild]
      exact ih k t


theorem lookupChild_setChild_ne :
    ∀ (cs : List (String × CTree)) (k k' : String) (t : CTree),
      ¬(k' = k) → lookupChild (setChild cs k' t) k = lookupChild cs k := by
  intro cs
  induction cs with
  | nil =>
    intro k k' t hne
    simp [setChild, lookupChild, hne]
  | cons p rest ih =>
    intro k k' t hne
    obtain ⟨k0, t0⟩ := p
    by_cases hk : k0 = k'
    · simp only [setChild, if_pos hk, lookupChild]
      rw [if_neg hne, if_neg (hk ▸ hne)]
    · simp only [setChild, if_neg hk, lookupChild]
      by_cases hk0 : k0 = k
      · rw [if_pos hk0, if_pos hk0]
      · rw [if_neg hk0, if_neg hk0]
        exact ih k k' t hne

/-- Counterexample to C6 as stated: with strict explicitly false, a residual
override addressing an absent key inside the framework subtree
(`hydra.zzz=1`) raises a strict-mode error instead of creating the key,
because the `hydra` subtree is marked strict unconditionally. -/
theorem strictness_counterexample :
    mergeWithDotlist
        (engageStrict
          (.node none [("hydra", .node none [("run", .leaf (.str "x"))]),
            ("foo", .leaf (.str "1"))])
          (some false))
        ["hydra.zzz=1"] =
      .error "Strict mode: key zzz not found" := rfl

/-- C6 (amended): after composition the framework subtree is strict
unconditionally and the root flag equals the effective strict argument;
consequently a residual whose head key is absent from the root — hence
outside the framework subtree — raises a strict-mode error when strict is
true and creates the key when strict is false or unset; residuals inside the
framework subtree are governed by its unconditional strict flag instead. -/
theorem strictness_contract (f0 : Option Bool) (cs : List (String × CTree))
    (h : CTree) (strict : Option Bool) (k : String) (rest : List String)
    (v : String)
    (hh : lookupChild cs "hydra" = some h)
    (habsent : lookupChild cs k = none) :
    (∃ cs', engageStrict (.node f0 cs) strict = .node strict cs' ∧
      lookupChild cs' "hydra" = some (setStruct h (some true))) ∧
    (strict = some true →
      (dotSet (engageStrict (.node f0 cs) strict) (k :: rest) (.str v)
        false).isOk = false) ∧
    ((strict = some false ∨ strict = none) →
      ∃ cs',
        dotSet (engageStrict (.node f0 cs) strict) (k :: rest) (.str v)
            false =
          .ok (.node strict cs') ∧
        lookupChild cs' k = some (mkPath rest (.str v))) := by
  have hkne : ¬(k = "hydra") := by
    intro hc
    rw [hc] at habsent
    rw [habsent] at hh
    exact absurd hh (by simp)
  have hkne' : ¬("hydra" = k) := fun hc => hkne hc.symm
  have hengage : engageStrict (.node f0 cs) strict =
      .node strict (setChild cs "hydra" (setStruct h (some true))) := by
    unfold engageStrict
    simp only [hh]
    rfl
  have habsent' :
      lookupChild (setChild cs "hydra" (setStruct h (some true))) k = none := by
    rw [lookupChild_setChild_ne cs k "hydra" (setStruct h (some true)) hkne']
    exact habsent
  refine ⟨⟨setChild cs "hydra" (setStruct h (some true)), hengage,
    lookupChild_setChild_self cs "hydra" (setStruct h (some true))⟩, ?_, ?_⟩
  · intro hstrict
    subst hstrict
    rw [hengage]
    simp only [dotSet, habsent']
    rfl
  · intro hstrict
    rw [hengage]
    refine ⟨setChild (setChild cs "hydra" (setStruct h (some true))) k
      (mkPath rest (.str v)), ?_,
      lookupChild_setChild_self _ k (mkPath rest (.str v))⟩
    rcases hstrict with hs | hs <;> subst hs <;>
      simp [dotSet, habsent']

/-- Witness for C6 at a concrete input: with strict true, a residual for the
absent root key `bar` is rejected. -/
theorem strictness_contract_witness :
    (dotSet
        (engageStrict
          (.node none [("hydra", .node none []), ("foo", .leaf (.str "1"))])
          (some true))
        ["bar"] (.str "1") false).isOk = false :=
  ((strictness_contract none
      [("hydra", .node none []), ("foo", .leaf (.str "1"))]
      (.node none []) (some true) "bar" [] "1" rfl rfl).2.1) rfl

/- ---------------------------------------------------------------------------
Claim C10: the stale key_to_idx map after a null-deletion.
--------------------------------------------------------------------------- -/

theorem getq_eraseIdx {α : Type _} :
    ∀ (l : List α) (i j : Nat), i ≤ j →
      (l.eraseIdx i).get? j = l.get? (j + 1) := by
  intro l
  induction l with
  | nil => intro i j _; simp [List.eraseIdx]
  | cons x xs ih =>
    intro i j hij
    cases i with
    | zero => rfl
    | succ i' =>
      cases j with
      | zero => exact absurd hij (by omega)
      | succ j' =>
        simp only [List.eraseIdx, List.get?]
        exact ih i' j' (Nat.le_of_succ_le_succ hij)

/-- C10: `_apply_defaults_overrides` computes `key_to_idx` once, before the
loop; after an override with value null deletes a defaults entry, a later
group-rewrite override whose group sits at a later position is applied at
its stale pre-deletion index into the shortened list: it either raises
(index out of range, or item assignment on a bare string) or mutates the
entry that originally sat one position further — not the entry named by its
key. -/
theorem stale_index_after_null_deletion (ds : List DEntry)
    (o1 o2 g1 g2 v : String) (i j : Nat)
    (hs1 : splitKeyVal o1 = some (g1, "null"))
    (hs2 : splitKeyVal o2 = some (g2, v))
    (hv : ¬(v = "null"))
    (hvc : hasComma v = false)
    (h1 : keyToIdx ds g1 = some i)
    (h2 : keyToIdx ds g2 = some j)
    (hij : i < j)
    (hwf : dictsHaveKeys ds = true) :
    (applyDefaultsOverrides [o1, o2] ds =
      match (ds.eraseIdx i).get? j with
      | none => .error "IndexError: list index out of range"
      | some (.bare _) => .error "TypeError: str does not support item assignment"
      | some (.dict kvs) =>
        .ok ([], (ds.eraseIdx i).set j (.dict (setKV kvs g2 (.str v))),
          [o1, o2])) ∧
    (ds.eraseIdx i).get? j = ds.get? (j + 1) := by
  have hlt1 : i < ds.length := keyToIdx_lt ds g1 i h1
  have hvv : (if hasComma v = true then "_SKIP_" else v) = v := by
    rw [hvc]
    simp
  constructor
  · unfold applyDefaultsOverrides
    rw [if_pos hwf]
    have hstep1 : adoGo (keyToIdx ds) [o1, o2] ([o1, o2], ds, []) =
        adoGo (keyToIdx ds) [o2] ([o2], ds.eraseIdx i, [o1]) := by
      simp only [adoGo, hs1, h1, List.nil_append]
      rw [if_pos
        (by decide : ((if hasComma "null" then "_SKIP_" else "null") = "null"))]
      rw [if_pos hlt1]
      rw [List.erase_cons_head]
    rw [hstep1]
    rcases hcase : (ds.eraseIdx i).get? j with _ | e
    · -- stale index out of range in the shortened list
      simp only [adoGo, hs2, h2, hvv]
      rw [if_neg hv]
      simp only [hcase]
    · rcases e with s | kvs
      · -- stale index now referring to a bare string
        simp only [adoGo, hs2, h2, hvv]
        rw [if_neg hv]
        simp only [hcase, entryAssign]
      · -- stale index mutating the shifted entry
        simp only [adoGo, hs2, h2, hvv]
        rw [if_neg hv]
        simp only [hcase, entryAssign]
        simp [adoGo, List.erase_cons_head]
  · exact getq_eraseIdx ds i j (Nat.le_of_lt hij)

/-- Witness for C10 at a concrete input: after `a=null` deletes entry 0, the
override `b=x` writes through the stale index 1 into the entry that
originally sat at position 2, turning `{c: 3}` into `{c: 3, b: x}`. -/
theorem stale_index_after_null_deletion_witness :
    applyDefaultsOverrides ["a=null", "b=x"]
        [.dict [("a", .str "1")], .dict [("b", .str "2")],
          .dict [("c", .str "3")]] =
      .ok ([],
        [.dict [("b", .str "2")], .dict [("c", .str "3"), ("b", .str "x")]],
        ["a=null", "b=x"]) ∧
    ([.dict [("b", .str "2")], .dict [("c", .str "3")]] :
        List DEntry).get? 1 =
      [DEntry.dict [("a", .str "1")], .dict [("b", .str "2")],
        .dict [("c", .str "3")]].get? 2 := by
  have h := stale_index_after_null_deletion
    [.dict [("a", .str "1")], .dict [("b", .str "2")],
      .dict [("c", .str "3")]]
    "a=null" "b=x" "a" "b" "x" 0 1 rfl rfl (by decide) rfl rfl rfl
    (by decide) rfl
  exact ⟨h.1.trans rfl, h.2⟩

end Hydra
